import Mathlib

/-!
Verification of the sorter-layout compiler (`build_sorter_layout.py`).

The script reads two JSON mappings (category → items, category → bins),
validates them, packs items into a fixed bin address space and emits an
exhaustive per-slot CSV manifest.  Below is a shallow embedding of the
script's pure core: Python dicts are modelled as insertion-ordered
association lists (`Dict`), raised exceptions and `sys.exit` calls as an
`Except` error value, and the CSV writer as the list of data rows it
emits.
-/

namespace Sorter

/-- Bin capacity: `BIN_CAPACITY = 9  # 3x3 pod`. -/
def BIN_CAPACITY : Nat := 9

/-- The constant `string.ascii_uppercase`. -/
def ascii_uppercase : List Char := "ABCDEFGHIJKLMNOPQRSTUVWXYZ".toList

/-- Models Python `str.casefold` on the ASCII identifiers this program
manipulates: lower-case every character. -/
def casefold (s : String) : String := String.mk (s.toList.map Char.toLower)

/-- Code-point lexicographic comparison of character lists: this is how
Python compares strings. -/
def lexLe : List Char → List Char → Bool
  | [], _ => true
  | _ :: _, [] => false
  | c :: cs, d :: ds =>
      if c.toNat < d.toNat then true
      else if d.toNat < c.toNat then false
      else lexLe cs ds

/-- The casefolded key of an item name, as its code-point sequence. -/
def cfKey (s : String) : List Char := (casefold s).toList

/-- The comparison used by `sorted(items, key=str.casefold)`. -/
def cfLe (a b : String) : Prop := lexLe (cfKey a) (cfKey b) = true

instance : DecidableRel cfLe := fun a b =>
  inferInstanceAs (Decidable (lexLe (cfKey a) (cfKey b) = true))

theorem char_eq_of_toNat_eq {c d : Char} (h : c.toNat = d.toNat) : c = d :=
  Char.eq_of_val_eq (UInt32.ext h)

theorem lexLe_cons_iff (c d : Char) (cs ds : List Char) :
    lexLe (c :: cs) (d :: ds) = true ↔
      c.toNat < d.toNat ∨ (c.toNat = d.toNat ∧ lexLe cs ds = true) := by
  simp only [lexLe]
  by_cases h1 : c.toNat < d.toNat
  · simp [h1]
  · by_cases h2 : d.toNat < c.toNat
    · simp [h1, h2]
      omega
    · have he : c.toNat = d.toNat := by omega
      simp [h1, h2, he]

theorem lexLe_total (x : List Char) : ∀ y : List Char, lexLe x y = true ∨ lexLe y x = true := by
  induction x with
  | nil => intro y; left; rfl
  | cons c cs ih =>
    intro y
    cases y with
    | nil => right; rfl
    | cons d ds =>
      rw [lexLe_cons_iff, lexLe_cons_iff]
      rcases Nat.lt_trichotomy c.toNat d.toNat with h | h | h
      · exact Or.inl (Or.inl h)
      · rcases ih ds with ht | ht
        · exact Or.inl (Or.inr ⟨h, ht⟩)
        · exact Or.inr (Or.inr ⟨h.symm, ht⟩)
      · exact Or.inr (Or.inl h)

theorem lexLe_trans (x : List Char) : ∀ y z : List Char,
    lexLe x y = true → lexLe y z = true → lexLe x z = true := by
  induction x with
  | nil => intro y z _ _; rfl
  | cons c cs ih =>
    intro y z hxy hyz
    cases y with
    | nil => simp [lexLe] at hxy
    | cons d ds =>
      cases z with
      | nil => simp [lexLe] at hyz
      | cons e es =>
        rw [lexLe_cons_iff] at hxy hyz ⊢
        rcases hxy with h1 | ⟨h1, t1⟩
        · rcases hyz with h2 | ⟨h2, _⟩
          · exact Or.inl (by omega)
          · exact Or.inl (by omega)
        · rcases hyz with h2 | ⟨h2, t2⟩
          · exact Or.inl (by omega)
          · exact Or.inr ⟨by omega, ih ds es t1 t2⟩

theorem lexLe_antisymm (x : List Char) : ∀ y, lexLe x y = true → lexLe y x = true → x = y := by
  induction x with
  | nil =>
    intro y h1 h2
    cases y with
    | nil => rfl
    | cons d ds => simp [lexLe] at h2
  | cons c cs ih =>
    intro y h1 h2
    cases y with
    | nil => simp [lexLe] at h1
    | cons d ds =>
      rw [lexLe_cons_iff] at h1 h2
      rcases h1 with h1 | ⟨h1, t1⟩
      · rcases h2 with h2 | ⟨h2, _⟩ <;> omega
      · rcases h2 with h2 | ⟨h2, t2⟩
        · omega
        · rw [char_eq_of_toNat_eq h1, ih ds t1 t2]

instance : IsTotal String cfLe := ⟨fun a b => lexLe_total (cfKey a) (cfKey b)⟩

instance : IsTrans String cfLe :=
  ⟨fun _ _ _ h1 h2 => lexLe_trans _ _ _ h1 h2⟩

/-- Models `sorted(items, key=str.casefold)`.  Python's sort is stable, so
its output coincides with that of any stable sorting algorithm for the same
preorder; insertion sort is stable. -/
def sortItems (items : List String) : List String := List.insertionSort cfLe items

/-- The failure modes of the pipeline: `sys.exit(2)` (category mismatch),
`sys.exit(3)` (bin conflict), and the `ValueError`/`TypeError`/`KeyError`
exceptions raised by the individual stages. -/
inductive PipeError : Type
  | categoryMismatch (onlyInCategories onlyInLayout : List String)
  | binConflict (withinCategory acrossCategories : List (String × List String))
  | badBin (binId : String)
  | outOfRange (binId : String)
  | capacity (itemCount capacity : Nat) (bins : List String)
  | keyError (key : String)
deriving DecidableEq

/-- Python `repr` of a simple identifier string (no escapes needed here). -/
def pyRepr (s : String) : String := "'" ++ s ++ "'"

/-- Python `repr`/`str` of a list of strings, e.g. `['A1', 'B2']`. -/
def pyReprList (xs : List String) : String :=
  "[" ++ String.intercalate ", " (xs.map pyRepr) ++ "]"

/-- The text of the f-strings used in the `raise ValueError(...)` calls. -/
def PipeError.message : PipeError → String
  | .capacity n cap bins =>
      "Not enough capacity: " ++ toString n ++ " items but only " ++ toString cap ++
        " slots across bins " ++ pyReprList bins ++ "."
  | .outOfRange b =>
      "[ERROR] Layout bin " ++ pyRepr b ++ " is outside the generated range (A1..X2)."
  | .badBin b =>
      "Invalid bin id: " ++ pyRepr b ++ " (expected like " ++ pyRepr "A1" ++ " or " ++
        pyRepr "X2" ++ ")"
  | _ => ""

/-- Python dicts, modelled as insertion-ordered association lists. -/
abbrev Dict (α : Type) : Type := List (String × α)

/-- Assignment `d[k] = v` on a Python dict: replace the value in place when the key is
present, append a new entry otherwise. -/
def dictSet {α : Type} : Dict α → String → α → Dict α
  | [], k, v => [(k, v)]
  | (k', v') :: rest, k, v =>
      if k' = k then (k, v) :: rest else (k', v') :: dictSet rest k v

/-- Subscription `d[k]` on a Python dict: raises `KeyError` when the key is absent. -/
def dictGet {α : Type} (d : Dict α) (k : String) : Except PipeError α :=
  match d.lookup k with
  | some v => .ok v
  | none => .error (.keyError k)

/-- The keys of a dict, in insertion order. -/
def keysOf {α : Type} (d : Dict α) : List String := d.map Prod.fst

/-! ## Mapping loader (`load_json_no_dupe_keys`) -/

/-- The loop body of `no_dupes_object_pairs_hook`: builds the object while
recording every key already seen. -/
def hookLoop {α : Type} : Dict α → List String → List String → List (String × α) →
    Dict α × List String
  | obj, _seen, dupes, [] => (obj, dupes)
  | obj, seen, dupes, (k, v) :: rest =>
      hookLoop (dictSet obj k v) (k :: seen)
        (if k ∈ seen then dupes ++ [k] else dupes) rest

/-- The `uniq` pass of the hook: report each duplicate key once, in stable
order. -/
def uniqKeep : List String → List String → List String
  | acc, [] => acc
  | acc, d :: rest => uniqKeep (if d ∈ acc then acc else acc ++ [d]) rest

/-- Models `no_dupes_object_pairs_hook`: fail with the (deduplicated) list of
repeated keys, or return the built mapping. -/
def no_dupes_object_pairs_hook {α : Type} (pairs : List (String × α)) :
    Except (List String) (Dict α) :=
  let r := hookLoop [] [] [] pairs
  if r.2 = [] then .ok r.1 else .error (uniqKeep [] r.2)

/-! ## Consistency validator -/

/-- The list `sorted(cat_set - layout_set, key=str.casefold)`. -/
def only_in_categories (categories layout : Dict (List String)) : List String :=
  sortItems ((keysOf categories).filter (fun k => decide (k ∉ keysOf layout)))

/-- The list `sorted(layout_set - cat_set, key=str.casefold)`. -/
def only_in_layout (categories layout : Dict (List String)) : List String :=
  sortItems ((keysOf layout).filter (fun k => decide (k ∉ keysOf categories)))

/-- Models `validate_same_categories`; the `sys.exit(2)` after printing the
two mismatch sections becomes the `categoryMismatch` error carrying both
(fully accumulated) difference lists. -/
def validate_same_categories (categories layout : Dict (List String)) :
    Except PipeError Unit :=
  if only_in_categories categories layout = [] ∧ only_in_layout categories layout = [] then
    .ok ()
  else
    .error (.categoryMismatch (only_in_categories categories layout)
      (only_in_layout categories layout))

/-- The `dupes` accumulation of `validate_layout_bins_unique` for one
category's bin list. -/
def dupesLoop : List String → List String → List String → List String
  | _seen, dupes, [] => dupes
  | seen, dupes, b :: rest =>
      dupesLoop (b :: seen) (if b ∈ seen ∧ b ∉ dupes then dupes ++ [b] else dupes) rest

/-- Duplicate bins within one category's list, in first-duplication order. -/
def dupesIn (bins : List String) : List String := dupesLoop [] [] bins

/-- The mapping `category_dupes`: the categories whose bin list contains duplicates. -/
def category_dupes (layout : Dict (List String)) : Dict (List String) :=
  (layout.filter (fun p => decide (dupesIn p.2 ≠ []))).map (fun p => (p.1, dupesIn p.2))

/-- The mapping `bin_to_categories`: every bin mapped to the list of categories that
declare it (`setdefault(b, []).append(category)`). -/
def bin_to_categories (layout : Dict (List String)) : Dict (List String) :=
  layout.foldl
    (fun d p => p.2.foldl (fun d' b => dictSet d' b (((d'.lookup b).getD []) ++ [p.1])) d)
    []

/-- The mapping `overlaps`: the bins declared by more than one category entry. -/
def overlaps (layout : Dict (List String)) : Dict (List String) :=
  (bin_to_categories layout).filter (fun p => decide (1 < p.2.length))

/-- The within-category duplicate report, printed sorted case-insensitively. -/
def dupes_report (layout : Dict (List String)) : Dict (List String) :=
  (sortItems (keysOf (category_dupes layout))).map
    (fun c => (c, sortItems (((category_dupes layout).lookup c).getD [])))

/-- The cross-category overlap report, printed sorted case-insensitively. -/
def overlaps_report (layout : Dict (List String)) : Dict (List String) :=
  (sortItems (keysOf (overlaps layout))).map
    (fun b => (b, sortItems (((overlaps layout).lookup b).getD [])))

/-- Models `validate_layout_bins_unique`; the `sys.exit(3)` after printing
both reports becomes the `binConflict` error carrying both of them. -/
def validate_layout_bins_unique (layout : Dict (List String)) : Except PipeError Unit :=
  if category_dupes layout = [] ∧ overlaps layout = [] then .ok ()
  else .error (.binConflict (dupes_report layout) (overlaps_report layout))

/-! ## Bin space generator -/

/-- Models `parse_bin`: `'A1' -> ('A', 1)`. -/
def parse_bin (binId : String) : Except PipeError (Char × Nat) :=
  match binId.toList with
  | [c, d] =>
      if c ∈ ascii_uppercase ∧ (d = '1' ∨ d = '2') then
        .ok (c, if d = '1' then 1 else 2)
      else .error (.badBin binId)
  | _ => .error (.badBin binId)

/-- Models `generate_all_bins`: per letter of the closed range, first the
`1` cluster then the `2` cluster (A1, A2, B1, B2, ...). -/
def generate_all_bins (start_letter end_letter : Char) : List String :=
  let start_idx := ascii_uppercase.indexOf start_letter
  let end_idx := ascii_uppercase.indexOf end_letter
  let letters := (ascii_uppercase.drop start_idx).take (end_idx + 1 - start_idx)
  letters.foldl
    (fun bins letter => bins ++ [String.mk [letter, '1'], String.mk [letter, '2']]) []

/-! ## Packer -/

/-- The inner loop of `build_bin_to_category` over one category's bins. -/
def assignBins (category : String) : Dict String → List String → Except PipeError (Dict String)
  | b2c, [] => .ok b2c
  | b2c, b :: rest =>
      if (b2c.lookup b).isSome then assignBins category (dictSet b2c b category) rest
      else .error (.outOfRange b)

/-- The outer loop of `build_bin_to_category` over the layout's categories. -/
def b2cLoop : Dict String → Dict (List String) → Except PipeError (Dict String)
  | b2c, [] => .ok b2c
  | b2c, (category, bins) :: rest =>
      match assignBins category b2c bins with
      | .error e => .error e
      | .ok b2c' => b2cLoop b2c' rest

/-- Models `build_bin_to_category`: every generated bin starts as
`"UNUSED"`, layout bins must lie inside the generated space. -/
def build_bin_to_category (all_bins : List String) (layout : Dict (List String)) :
    Except PipeError (Dict String) :=
  b2cLoop (all_bins.foldl (fun d b => dictSet d b "UNUSED") []) layout

/-- The slice `items_sorted[i : i + BIN_CAPACITY]`. -/
def sliceChunk (sorted : List String) (i : Nat) : List String :=
  (sorted.drop i).take BIN_CAPACITY

/-- The fill loop of `fill_bins_for_category`: one slice per bin, breaking
once the items are exhausted. -/
def fillLoop (sorted : List String) : Dict (List String) → Nat → List String →
    Dict (List String)
  | out, _i, [] => out
  | out, i, b :: rest =>
      let out' := dictSet out b (sliceChunk sorted i)
      if sorted.length ≤ i + BIN_CAPACITY then out' else fillLoop sorted out' (i + BIN_CAPACITY) rest

/-- Models `fill_bins_for_category`: sort case-insensitively, check
capacity, then hand out consecutive chunks of at most 9 items per bin. -/
def fill_bins_for_category (items bins : List String) :
    Except PipeError (Dict (List String)) :=
  let items_sorted := sortItems items
  let capacity := bins.length * BIN_CAPACITY
  if capacity < items_sorted.length then
    .error (.capacity items_sorted.length capacity bins)
  else
    .ok (fillLoop items_sorted
      (bins.foldl (fun d b => dictSet d b ([] : List String)) []) 0 bins)

/-- The reference description of packing: bin `k` receives the `k`-th
consecutive chunk of at most `BIN_CAPACITY` sorted items. -/
def chunksFrom (sorted : List String) : Nat → List String → Dict (List String)
  | _i, [] => []
  | i, b :: rest => (b, sliceChunk sorted i) :: chunksFrom sorted (i + BIN_CAPACITY) rest

/-- One per-bin record of the sorter table:
`{"category": ..., "items": [...]}`. -/
structure BinRec : Type where
  category : String
  items : List String
deriving DecidableEq

/-- The pre-fill loop of `build_full_sorter`: every generated bin gets its
category and an empty item list. -/
def prefill (b2c : Dict String) : Dict BinRec → List String → Except PipeError (Dict BinRec)
  | sorter, [] => .ok sorter
  | sorter, b :: rest =>
      match dictGet b2c b with
      | .error e => .error e
      | .ok c => prefill b2c (dictSet sorter b ⟨c, []⟩) rest

/-- The update `sorter[b]["items"] = filled.get(b, [])` over one category's bins. -/
def applyFill (filled : Dict (List String)) : Dict BinRec → List String →
    Except PipeError (Dict BinRec)
  | sorter, [] => .ok sorter
  | sorter, b :: rest =>
      match dictGet sorter b with
      | .error e => .error e
      | .ok r => applyFill filled (dictSet sorter b ⟨r.category, (filled.lookup b).getD []⟩) rest

/-- The per-category fill loop of `build_full_sorter`. -/
def fillCategories (categories : Dict (List String)) : Dict BinRec → Dict (List String) →
    Except PipeError (Dict BinRec)
  | sorter, [] => .ok sorter
  | sorter, (category, bins) :: rest =>
      match dictGet categories category with
      | .error e => .error e
      | .ok items =>
        match fill_bins_for_category items bins with
        | .error e => .error e
        | .ok filled =>
          match applyFill filled sorter bins with
          | .error e => .error e
          | .ok sorter' => fillCategories categories sorter' rest

/-- Models `build_full_sorter`. -/
def build_full_sorter (categories layout : Dict (List String)) (all_bins : List String) :
    Except PipeError (Dict BinRec) :=
  match build_bin_to_category all_bins layout with
  | .error e => .error e
  | .ok b2c =>
    match prefill b2c [] all_bins with
    | .error e => .error e
    | .ok sorter0 => fillCategories categories sorter0 layout

/-! ## Slot table emitter (`write_exhaustive_chest_csv`) -/

/-- One emitted CSV data row (the `Locked`/`Framed` trailing columns are
always empty and omitted from the model). -/
structure Row : Type where
  idx : Nat
  chestId : String
  column : Char
  cluster : Nat
  number : Nat
  categories : String
  description : String
deriving DecidableEq

/-- Right padding `items + [""] * (BIN_CAPACITY - len(items))`. -/
def padItems (items : List String) : List String :=
  items ++ List.replicate (BIN_CAPACITY - items.length) ""

/-- The row written for slot `j + 1` (0-based slot offset `j`) of a bin,
with the running counter at `counter` when the bin's rows began. -/
def mkRow (counter : Nat) (binId : String) (col : Char) (clus : Nat) (r : BinRec)
    (j : Nat) : Row :=
  { idx := counter + j
    chestId := binId ++ "-" ++ toString (j + 1)
    column := col
    cluster := clus
    number := j + 1
    categories := r.category
    description := (padItems r.items).getD j "" }

/-- The 9 rows written for one bin. -/
def emitBin (counter : Nat) (binId : String) (r : BinRec) : Except PipeError (List Row) :=
  match parse_bin binId with
  | .error e => .error e
  | .ok cc => .ok ((List.range BIN_CAPACITY).map (mkRow counter binId cc.1 cc.2 r))

/-- The writer loop over all generated bins, threading the running counter
(which advances by exactly 9 per bin). -/
def writeLoop (sorter : Dict BinRec) : Nat → List String → Except PipeError (List Row)
  | _counter, [] => .ok []
  | counter, b :: rest =>
      match dictGet sorter b with
      | .error e => .error e
      | .ok r =>
        match emitBin counter b r with
        | .error e => .error e
        | .ok rows =>
          match writeLoop sorter (counter + BIN_CAPACITY) rest with
          | .error e => .error e
          | .ok tail => .ok (rows ++ tail)

/-- Models `write_exhaustive_chest_csv` as the list of data rows it writes
(the counter starts at 1). -/
def write_exhaustive_chest_csv (sorter : Dict BinRec) (all_bins : List String) :
    Except PipeError (List Row) :=
  writeLoop sorter 1 all_bins

/-- Models `main`: validate, generate the A..X bin space, build the full
sorter, emit the manifest.  Each `sys.exit`/uncaught exception is the
corresponding error value. -/
def main (categories layout : Dict (List String)) : Except PipeError (List Row) :=
  match validate_same_categories categories layout with
  | .error e => .error e
  | .ok _ =>
    match validate_layout_bins_unique layout with
    | .error e => .error e
    | .ok _ =>
      match build_full_sorter categories layout (generate_all_bins 'A' 'X') with
      | .error e => .error e
      | .ok sorter => write_exhaustive_chest_csv sorter (generate_all_bins 'A' 'X')

/-- The errors the packing stage is allowed to produce. -/
def isPackingError : PipeError → Prop
  | .outOfRange _ => True
  | .capacity _ _ _ => True
  | _ => False

/-- Whether some category of the layout declares bin `b`. -/
def refersTo (layout : Dict (List String)) (b : String) : Prop :=
  ∃ p ∈ layout, b ∈ p.2

instance (layout : Dict (List String)) (b : String) : Decidable (refersTo layout b) :=
  inferInstanceAs (Decidable (∃ p ∈ layout, b ∈ p.2))

/-! ## Association-list (dict) lemmas -/

theorem lookup_cons {α : Type} (k' : String) (v' : α) (rest : Dict α) (x : String) :
    ((k', v') :: rest).lookup x = if x = k' then some v' else rest.lookup x := by
  by_cases hx : x = k'
  · subst hx; simp [List.lookup]
  · have hb : (x == k') = false := beq_eq_false_iff_ne.mpr hx
    simp [List.lookup, hb, hx]

theorem lookup_dictSet {α : Type} (d : Dict α) (k : String) (v : α) (x : String) :
    (dictSet d k v).lookup x = if x = k then some v else d.lookup x := by
  induction d with
  | nil => simp [dictSet, lookup_cons]
  | cons p rest ih =>
    obtain ⟨k', v'⟩ := p
    by_cases hk : k' = k
    · subst hk
      by_cases hx : x = k' <;> simp [dictSet, lookup_cons, hx]
    · by_cases hx : x = k'
      · subst hx
        simp [dictSet, hk, lookup_cons, Ne.symm hk]
      · simp [dictSet, hk, lookup_cons, hx, ih]

theorem mem_dictSet {α : Type} {d : Dict α} {k : String} {v : α} {p : String × α}
    (h : p ∈ dictSet d k v) : p ∈ d ∨ p = (k, v) := by
  induction d with
  | nil =>
    simp only [dictSet, List.mem_singleton] at h
    exact Or.inr h
  | cons q rest ih =>
    obtain ⟨k', v'⟩ := q
    by_cases hk : k' = k
    · subst hk
      simp only [dictSet, if_pos rfl] at h
      rcases List.mem_cons.mp h with h1 | h1
      · exact Or.inr h1
      · exact Or.inl (List.mem_cons_of_mem _ h1)
    · simp only [dictSet, if_neg hk] at h
      rcases List.mem_cons.mp h with h1 | h1
      · exact Or.inl (h1 ▸ List.mem_cons_self _ _)
      · rcases ih h1 with h' | h'
        · exact Or.inl (List.mem_cons_of_mem _ h')
        · exact Or.inr h'

theorem lookup_mem {α : Type} {d : Dict α} {x : String} {v : α}
    (h : d.lookup x = some v) : (x, v) ∈ d := by
  induction d with
  | nil => simp [List.lookup] at h
  | cons p rest ih =>
    obtain ⟨k', v'⟩ := p
    rw [lookup_cons] at h
    by_cases hx : x = k'
    · rw [if_pos hx] at h
      subst hx
      simp at h
      simp [h]
    · rw [if_neg hx] at h
      simp [ih h]

theorem lookup_isSome_iff_mem_keys {α : Type} (d : Dict α) (x : String) :
    (d.lookup x).isSome = true ↔ x ∈ keysOf d := by
  induction d with
  | nil => simp [List.lookup, keysOf]
  | cons p rest ih =>
    obtain ⟨k', v'⟩ := p
    rw [lookup_cons]
    by_cases hx : x = k'
    · simp [hx, keysOf]
    · rw [if_neg hx, ih]
      simp [keysOf, hx]

theorem lookup_foldl_dictSet_const {α : Type} (v : α) (xs : List String) (d : Dict α)
    (x : String) :
    ((xs.foldl (fun d' b => dictSet d' b v) d).lookup x) =
      if x ∈ xs then some v else d.lookup x := by
  induction xs generalizing d with
  | nil => simp
  | cons b rest ih =>
    simp only [List.foldl_cons, ih, lookup_dictSet]
    by_cases hr : x ∈ rest
    · simp [hr]
    · by_cases hb : x = b <;> simp [hr, hb]

theorem dictSet_of_lookup_none {α : Type} {d : Dict α} {k : String} (v : α)
    (h : d.lookup k = none) : dictSet d k v = d ++ [(k, v)] := by
  induction d with
  | nil => simp [dictSet]
  | cons p rest ih =>
    obtain ⟨k', v'⟩ := p
    rw [lookup_cons] at h
    by_cases hk : k = k'
    · rw [if_pos hk] at h; simp at h
    · rw [if_neg hk] at h
      have hk' : ¬ k' = k := fun hh => hk hh.symm
      simp [dictSet, hk', ih h]

theorem dictSet_append_cons {α : Type} {front : Dict α} {b : String} (v0 v : α)
    (rest : Dict α) (h : front.lookup b = none) :
    dictSet (front ++ (b, v0) :: rest) b v = front ++ (b, v) :: rest := by
  induction front with
  | nil => simp [dictSet]
  | cons p fr ih =>
    obtain ⟨k', v'⟩ := p
    rw [lookup_cons] at h
    by_cases hk : b = k'
    · rw [if_pos hk] at h; simp at h
    · rw [if_neg hk] at h
      have hk' : ¬ k' = b := fun hh => hk hh.symm
      simp [dictSet, hk', ih h]

theorem lookup_append_of_none {α : Type} {l1 : Dict α} (l2 : Dict α) {x : String}
    (h : l1.lookup x = none) : (l1 ++ l2).lookup x = l2.lookup x := by
  induction l1 with
  | nil => simp
  | cons p rest ih =>
    obtain ⟨k', v'⟩ := p
    rw [lookup_cons] at h
    by_cases hx : x = k'
    · rw [if_pos hx] at h; simp at h
    · rw [if_neg hx] at h
      rw [List.cons_append, lookup_cons, if_neg hx]
      exact ih h

theorem dictGet_ok_iff {α : Type} (d : Dict α) (k : String) (v : α) :
    dictGet d k = .ok v ↔ d.lookup k = some v := by
  unfold dictGet
  cases h : d.lookup k <;> simp

theorem dictGet_error_iff {α : Type} (d : Dict α) (k : String) (e : PipeError) :
    dictGet d k = .error e ↔ d.lookup k = none ∧ e = .keyError k := by
  unfold dictGet
  cases h : d.lookup k <;> simp [eq_comm]

/-! ## Loader lemmas -/

/-- The duplicate keys the hook's loop appends, relative to the keys already
`seen`, in encounter order. -/
def dupKeys {α : Type} (seen : List String) : List (String × α) → List String
  | [] => []
  | (k, _) :: rest => (if k ∈ seen then [k] else []) ++ dupKeys (k :: seen) rest

theorem hookLoop_snd {α : Type} (pairs : List (String × α)) (obj : Dict α)
    (seen dupes : List String) :
    (hookLoop obj seen dupes pairs).2 = dupes ++ dupKeys seen pairs := by
  induction pairs generalizing obj seen dupes with
  | nil => simp [hookLoop, dupKeys]
  | cons p rest ih =>
    obtain ⟨k, v⟩ := p
    by_cases hk : k ∈ seen <;> simp [hookLoop, dupKeys, hk, ih, List.append_assoc]

theorem hookLoop_fst {α : Type} (pairs : List (String × α)) (obj : Dict α)
    (seen dupes : List String) :
    (hookLoop obj seen dupes pairs).1 = pairs.foldl (fun d p => dictSet d p.1 p.2) obj := by
  induction pairs generalizing obj seen dupes with
  | nil => simp [hookLoop]
  | cons p rest ih =>
    obtain ⟨k, v⟩ := p
    simp [hookLoop, ih]

theorem mem_iff_one_le_count {l : List String} {x : String} : x ∈ l ↔ 1 ≤ l.count x := by
  rw [← List.count_pos_iff]
  omega

theorem mem_dupKeys {α : Type} (x : String) (pairs : List (String × α)) (seen : List String) :
    x ∈ dupKeys seen pairs ↔
      (x ∈ seen ∧ x ∈ keysOf pairs) ∨ 2 ≤ (keysOf pairs).count x := by
  induction pairs generalizing seen with
  | nil => simp [dupKeys, keysOf]
  | cons p rest ih =>
    obtain ⟨k, v⟩ := p
    have hkeys : keysOf ((k, v) :: rest) = k :: keysOf rest := rfl
    rw [hkeys]
    simp only [dupKeys, List.mem_append, ih, List.count_cons, List.mem_cons]
    by_cases hxk : x = k
    · subst hxk
      by_cases hks : x ∈ seen
      · simp [hks]
      · rw [if_neg hks]
        simp only [List.not_mem_nil, false_or, eq_self_iff_true, true_or, true_and, hks,
          false_and, beq_self_eq_true, if_true, mem_iff_one_le_count]
        omega
    · have h1 : x ∉ (if k ∈ seen then [k] else ([] : List String)) := by
        split <;> simp [hxk]
      have hkx : ¬ k = x := fun h => hxk h.symm
      simp [hxk, hkx, h1]

theorem dupKeys_nil_iff {α : Type} (pairs : List (String × α)) :
    dupKeys ([] : List String) pairs = [] ↔ (keysOf pairs).Nodup := by
  rw [List.eq_nil_iff_forall_not_mem, List.nodup_iff_count_le_one]
  constructor
  · intro h a
    by_contra hc
    push_neg at hc
    exact h a ((mem_dupKeys a pairs []).mpr (Or.inr hc))
  · intro h a ha
    rcases (mem_dupKeys a pairs []).mp ha with ⟨h1, _⟩ | h2
    · simp at h1
    · have := h a
      omega

theorem mem_uniqKeep (l : List String) (acc : List String) (x : String) :
    x ∈ uniqKeep acc l ↔ x ∈ acc ∨ x ∈ l := by
  induction l generalizing acc with
  | nil => simp [uniqKeep]
  | cons d rest ih =>
    by_cases hd : d ∈ acc
    · simp only [uniqKeep, if_pos hd, ih, List.mem_cons]
      constructor
      · rintro (h | h)
        · exact Or.inl h
        · exact Or.inr (Or.inr h)
      · rintro (h | h | h)
        · exact Or.inl h
        · exact Or.inl (h ▸ hd)
        · exact Or.inr h
    · simp only [uniqKeep, if_neg hd, ih, List.mem_append, List.mem_singleton, List.mem_cons]
      tauto

theorem uniqKeep_nodup (l : List String) (acc : List String) (hacc : acc.Nodup) :
    (uniqKeep acc l).Nodup := by
  induction l generalizing acc with
  | nil => exact hacc
  | cons d rest ih =>
    by_cases hd : d ∈ acc
    · simpa [uniqKeep, if_pos hd] using ih acc hacc
    · refine ih _ ?_
      simp [List.nodup_append, hacc, hd]

theorem foldl_dictSet_of_nodup {α : Type} (pairs : List (String × α)) (front : Dict α)
    (hnd : (keysOf pairs).Nodup)
    (hdisj : ∀ k ∈ keysOf pairs, front.lookup k = none) :
    pairs.foldl (fun d p => dictSet d p.1 p.2) front = front ++ pairs := by
  induction pairs generalizing front with
  | nil => simp
  | cons p rest ih =>
    obtain ⟨k, v⟩ := p
    have hcons : keysOf ((k, v) :: rest) = k :: keysOf rest := rfl
    rw [hcons] at hnd
    have hkf : front.lookup k = none := hdisj k (by simp [keysOf])
    have hkn : k ∉ keysOf rest := (List.nodup_cons.mp hnd).1
    simp only [List.foldl_cons]
    rw [dictSet_of_lookup_none v hkf, ih (front ++ [(k, v)]) (List.nodup_cons.mp hnd).2 ?_]
    · simp
    · intro k' hk'
      rw [lookup_append_of_none _ (hdisj k' (by rw [hcons]; exact List.mem_cons_of_mem _ hk'))]
      have hne : k' ≠ k := fun h => hkn (h ▸ hk')
      simp [lookup_cons, hne]

/-- Claim C4: if any top-level key is repeated, loading fails with a
duplicate-key error naming every duplicate key exactly once (the error list
has no duplicates and contains exactly the keys occurring at least twice);
when no key is repeated the loader returns exactly the given pairs — it
never silently keeps the last occurrence, and no partial mapping survives a
failed parse (an error carries no mapping at all). -/
theorem C4_spec {α : Type} (pairs : List (String × α)) :
    (¬ (keysOf pairs).Nodup →
      ∃ ds, no_dupes_object_pairs_hook pairs = .error ds ∧ ds.Nodup ∧
        ∀ k, k ∈ ds ↔ 2 ≤ (keysOf pairs).count k) ∧
    ((keysOf pairs).Nodup → no_dupes_object_pairs_hook pairs = .ok pairs) := by
  constructor
  · intro hnd
    have hsnd : (hookLoop ([] : Dict α) [] [] pairs).2 = dupKeys [] pairs := by
      simpa using hookLoop_snd pairs [] [] []
    have hne : dupKeys ([] : List String) pairs ≠ [] :=
      fun h => hnd ((dupKeys_nil_iff pairs).mp h)
    refine ⟨uniqKeep [] (dupKeys [] pairs), ?_, ?_, ?_⟩
    · simp only [no_dupes_object_pairs_hook]
      rw [hsnd, if_neg hne]
    · exact uniqKeep_nodup _ [] List.nodup_nil
    · intro k
      rw [mem_uniqKeep, mem_dupKeys]
      simp
  · intro hnd
    have hsnd : (hookLoop ([] : Dict α) [] [] pairs).2 = dupKeys [] pairs := by
      simpa using hookLoop_snd pairs [] [] []
    have hz : dupKeys ([] : List String) pairs = [] := (dupKeys_nil_iff pairs).mpr hnd
    simp only [no_dupes_object_pairs_hook]
    rw [hsnd, if_pos hz, hookLoop_fst,
      foldl_dictSet_of_nodup pairs [] hnd (fun k _ => rfl)]
    simp

/-- Witness for C4: a document with key `"a"` occurring three times fails
naming `"a"` once, and a clean two-key document loads as given. -/
theorem C4_witness :
    (¬ (keysOf [("a", 1), ("a", 2), ("b", 3), ("a", 4)]).Nodup ∧
      (∃ ds, no_dupes_object_pairs_hook [("a", 1), ("a", 2), ("b", 3), ("a", 4)] = .error ds ∧
        ds.Nodup ∧ ∀ k, k ∈ ds ↔ 2 ≤ (keysOf [("a", 1), ("a", 2), ("b", 3), ("a", 4)]).count k)) ∧
    ((keysOf [("a", 1), ("b", 2)]).Nodup ∧
      no_dupes_object_pairs_hook [("a", 1), ("b", 2)] = .ok [("a", 1), ("b", 2)]) :=
  ⟨⟨by decide, (C4_spec [("a", 1), ("a", 2), ("b", 3), ("a", 4)]).1 (by decide)⟩,
   ⟨by decide, (C4_spec [("a", 1), ("b", 2)]).2 (by decide)⟩⟩

/-! ## Stable-sort lemmas -/

theorem sortItems_perm (items : List String) : (sortItems items).Perm items :=
  List.perm_insertionSort cfLe items

theorem sortItems_sorted (items : List String) : (sortItems items).Pairwise cfLe :=
  List.sorted_insertionSort cfLe items

theorem sortItems_length (items : List String) : (sortItems items).length = items.length :=
  (sortItems_perm items).length_eq

theorem eq_of_perm_of_map_eq {α β : Type} (f : α → β) (l₁ l₂ : List α)
    (hp : l₁.Perm l₂) (hm : l₁.map f = l₂.map f) (hnd : (l₁.map f).Nodup) : l₁ = l₂ := by
  induction l₁ generalizing l₂ with
  | nil => exact hp.nil_eq
  | cons a t₁ ih =>
    cases l₂ with
    | nil => exact absurd hp.symm (by simp)
    | cons b t₂ =>
      have hfab : f a = f b := by
        have := congrArg List.head? hm
        simpa using this
      have hab : a = b := by
        rcases List.mem_cons.mp (hp.symm.subset (List.mem_cons_self b t₂)) with h | h
        · exact h.symm
        · exfalso
          have h1 : f b ∈ t₁.map f := List.mem_map_of_mem f h
          rw [← hfab] at h1
          rw [List.map_cons] at hnd
          exact (List.nodup_cons.mp hnd).1 h1
      subst hab
      have hp' : t₁.Perm t₂ := hp.cons_inv
      have hm' : t₁.map f = t₂.map f := by
        simpa using congrArg List.tail hm
      have hnd' : (t₁.map f).Nodup := by
        rw [List.map_cons] at hnd
        exact (List.nodup_cons.mp hnd).2
      rw [ih t₂ hp' hm' hnd']

theorem string_toList_injective : Function.Injective String.toList := by
  intro a b h
  cases a
  cases b
  simp only [String.toList] at h
  exact congrArg String.mk h

theorem sortItems_eq_of_perm {items₁ items₂ : List String} (hp : items₁.Perm items₂)
    (hnd : (items₁.map casefold).Nodup) : sortItems items₁ = sortItems items₂ := by
  haveI : IsAntisymm (List Char) (fun x y => lexLe x y = true) := ⟨fun x y => lexLe_antisymm x y⟩
  have hperm : (sortItems items₁).Perm (sortItems items₂) :=
    ((sortItems_perm items₁).trans hp).trans (sortItems_perm items₂).symm
  have hms₁ : ((sortItems items₁).map cfKey).Pairwise (fun x y => lexLe x y = true) :=
    List.pairwise_map.mpr ((sortItems_sorted items₁).imp (fun h => h))
  have hms₂ : ((sortItems items₂).map cfKey).Pairwise (fun x y => lexLe x y = true) :=
    List.pairwise_map.mpr ((sortItems_sorted items₂).imp (fun h => h))
  have hmap : (sortItems items₁).map cfKey = (sortItems items₂).map cfKey :=
    List.eq_of_perm_of_sorted (hperm.map cfKey) hms₁ hms₂
  have hnd' : (items₁.map cfKey).Nodup := by
    have : items₁.map cfKey = (items₁.map casefold).map String.toList := by
      rw [List.map_map]
      rfl
    rw [this]
    exact hnd.map string_toList_injective
  have hnds : ((sortItems items₁).map cfKey).Nodup :=
    (((sortItems_perm items₁).map cfKey).nodup_iff).mpr hnd'
  exact eq_of_perm_of_map_eq cfKey _ _ hperm hmap hnds

/-- Claim C2 fails as stated: `["a", "A"]` and `["A", "a"]` are permutations
of each other, yet packing them into bin `A1` yields different per-bin item
lists, because the case-insensitive sort is stable and keeps the input order
of names with equal casefold. -/
theorem C2_counterexample :
    (["a", "A"] : List String).Perm ["A", "a"] ∧
    fill_bins_for_category ["a", "A"] ["A1"] = .ok [("A1", ["a", "A"])] ∧
    fill_bins_for_category ["A", "a"] ["A1"] = .ok [("A1", ["A", "a"])] ∧
    (["a", "A"] : List String) ≠ ["A", "a"] :=
  ⟨by decide, by rfl, by rfl, by decide⟩

/-- Claim C2 (amended): for every category, the packed item order is
independent of the input order of its item list provided no two item names
share a casefolded form: for any two such item lists that are permutations
of each other, packing produces identical per-bin item lists.  (When two
names have equal casefold, the stable sort keeps their relative input
order, so the output does depend on the input order of those names.) -/
theorem C2_spec (items₁ items₂ bins : List String) (hp : items₁.Perm items₂)
    (hnd : (items₁.map casefold).Nodup) :
    fill_bins_for_category items₁ bins = fill_bins_for_category items₂ bins := by
  unfold fill_bins_for_category
  rw [sortItems_eq_of_perm hp hnd]

/-- Witness for C2 (amended) at `["b", "A"] ~ ["A", "b"]`, packed into `A1`. -/
theorem C2_witness :
    (["b", "A"] : List String).Perm ["A", "b"] ∧
    ((["b", "A"] : List String).map casefold).Nodup ∧
    fill_bins_for_category ["b", "A"] ["A1"] = fill_bins_for_category ["A", "b"] ["A1"] :=
  ⟨by decide, by decide, C2_spec ["b", "A"] ["A", "b"] ["A1"] (by decide) (by decide)⟩

/-! ## Packer lemmas -/

/-- Claim C7: packing a category fails if and only if its total item count
exceeds (number of bins × 9); the failure is the capacity error, and its
message states the item count, the total capacity, and the bin list. -/
theorem C7_spec (items bins : List String) (e : PipeError) :
    fill_bins_for_category items bins = .error e ↔
      (bins.length * BIN_CAPACITY < items.length ∧
       e = .capacity items.length (bins.length * BIN_CAPACITY) bins ∧
       e.message = "Not enough capacity: " ++ toString items.length ++ " items but only " ++
         toString (bins.length * BIN_CAPACITY) ++ " slots across bins " ++
         pyReprList bins ++ ".") := by
  unfold fill_bins_for_category
  simp only [sortItems_length]
  by_cases h : bins.length * BIN_CAPACITY < items.length
  · rw [if_pos h]
    constructor
    · intro he
      have he' : e = .capacity items.length (bins.length * BIN_CAPACITY) bins := by
        cases he
        rfl
      subst he'
      exact ⟨h, rfl, rfl⟩
    · rintro ⟨-, rfl, -⟩
      rfl
  · rw [if_neg h]
    simp [h]

theorem chunksFrom_get? (sorted : List String) (bins : List String) :
    ∀ i k b, bins.get? k = some b →
      (chunksFrom sorted i bins).get? k =
        some (b, sliceChunk sorted (i + BIN_CAPACITY * k)) := by
  induction bins with
  | nil => intro i k b h; simp at h
  | cons b0 rest ih =>
    intro i k b h
    cases k with
    | zero =>
      simp only [List.get?_cons_zero, Option.some.injEq] at h
      subst h
      simp [chunksFrom]
    | succ k' =>
      rw [List.get?_cons_succ] at h
      have h2 := ih (i + BIN_CAPACITY) k' b h
      have harith : i + BIN_CAPACITY + BIN_CAPACITY * k' = i + BIN_CAPACITY * (k' + 1) := by
        ring
      rw [harith] at h2
      simpa [chunksFrom] using h2

theorem chunksFrom_of_exhausted (sorted : List String) :
    ∀ (bins : List String) (i : Nat), sorted.length ≤ i →
      chunksFrom sorted i bins = bins.map (fun b => (b, ([] : List String))) := by
  intro bins
  induction bins with
  | nil => intro i _; simp [chunksFrom]
  | cons b rest ih =>
    intro i hi
    have hdrop : sorted.drop i = [] := List.drop_eq_nil_of_le hi
    simp [chunksFrom, sliceChunk, hdrop, ih (i + BIN_CAPACITY) (by omega)]

theorem fillLoop_spec (sorted : List String) :
    ∀ (bins : List String) (front : Dict (List String)) (i : Nat),
      bins.Nodup → (∀ b ∈ bins, front.lookup b = none) →
      fillLoop sorted (front ++ bins.map (fun b => (b, ([] : List String)))) i bins =
        front ++ chunksFrom sorted i bins := by
  intro bins
  induction bins with
  | nil => intro front i _ _; simp [fillLoop, chunksFrom]
  | cons b rest ih =>
    intro front i hnd hdisj
    have hfb : front.lookup b = none := hdisj b (List.mem_cons_self b rest)
    have hset : dictSet (front ++ (b, ([] : List String)) :: rest.map (fun x => (x, [])))
        b (sliceChunk sorted i)
        = front ++ (b, sliceChunk sorted i) :: rest.map (fun x => (x, [])) :=
      dictSet_append_cons _ _ _ hfb
    simp only [List.map_cons, fillLoop, hset]
    by_cases hlen : sorted.length ≤ i + BIN_CAPACITY
    · rw [if_pos hlen]
      rw [show chunksFrom sorted i (b :: rest)
          = (b, sliceChunk sorted i) :: chunksFrom sorted (i + BIN_CAPACITY) rest from rfl]
      rw [chunksFrom_of_exhausted sorted rest (i + BIN_CAPACITY) hlen]
    · rw [if_neg hlen]
      have hdisj' : ∀ b' ∈ rest, (front ++ [(b, sliceChunk sorted i)]).lookup b' = none := by
        intro b' hb'
        rw [lookup_append_of_none _ (hdisj b' (List.mem_cons_of_mem b hb'))]
        have hne : b' ≠ b := fun h => (List.nodup_cons.mp hnd).1 (h ▸ hb')
        rw [lookup_cons, if_neg hne]
        rfl
      have h3 := ih (front ++ [(b, sliceChunk sorted i)]) (i + BIN_CAPACITY)
        (List.nodup_cons.mp hnd).2 hdisj'
      rw [show front ++ (b, sliceChunk sorted i) :: rest.map (fun x => (x, ([] : List String)))
          = (front ++ [(b, sliceChunk sorted i)]) ++ rest.map (fun x => (x, [])) by simp]
      rw [h3]
      simp [chunksFrom]

theorem fill_bins_init (bins : List String) (hnd : bins.Nodup) :
    bins.foldl (fun d b => dictSet d b ([] : List String)) [] =
      bins.map (fun b => (b, ([] : List String))) := by
  have h1 : bins.foldl (fun d b => dictSet d b ([] : List String)) [] =
      (bins.map (fun b => (b, ([] : List String)))).foldl
        (fun d p => dictSet d p.1 p.2) [] := by
    rw [List.foldl_map]
  have h2 : keysOf (bins.map (fun b => (b, ([] : List String)))) = bins := by
    simp [keysOf, List.map_map, Function.comp_def]
  rw [h1, foldl_dictSet_of_nodup _ [] (by rw [h2]; exact hnd) (fun k _ => rfl)]
  simp

/-- Claim C5: for a category whose item count fits its bins' capacity,
packing sorts the items case-insensitively ascending and assigns bin `k`
the `k`-th consecutive chunk of at most 9 sorted items, in the order the
bins appear; bins past the exhaustion point receive the empty chunk (the
empty item list), and no error is raised. -/
theorem C5_spec (items bins : List String) (hnd : bins.Nodup)
    (hcap : items.length ≤ bins.length * BIN_CAPACITY) :
    fill_bins_for_category items bins = .ok (chunksFrom (sortItems items) 0 bins) ∧
    (sortItems items).Perm items ∧
    (sortItems items).Pairwise cfLe ∧
    ∀ k b, bins.get? k = some b →
      (chunksFrom (sortItems items) 0 bins).get? k =
        some (b, ((sortItems items).drop (BIN_CAPACITY * k)).take BIN_CAPACITY) := by
  refine ⟨?_, sortItems_perm items, sortItems_sorted items, ?_⟩
  · unfold fill_bins_for_category
    rw [if_neg (by rw [sortItems_length]; omega)]
    rw [fill_bins_init bins hnd]
    have h := fillLoop_spec (sortItems items) bins [] 0 hnd (fun b _ => rfl)
    simpa using h
  · intro k b hk
    have h := chunksFrom_get? (sortItems items) bins 0 k b hk
    simpa [sliceChunk] using h

/-- Witness for C5: three items into the two bins `A1`, `B1`; all items fit
in the first bin's chunk and `B1` receives the empty chunk. -/
theorem C5_witness :
    (["A1", "B1"] : List String).Nodup ∧
    (["b", "a", "C"] : List String).length ≤
      (["A1", "B1"] : List String).length * BIN_CAPACITY ∧
    fill_bins_for_category ["b", "a", "C"] ["A1", "B1"] =
      .ok (chunksFrom (sortItems ["b", "a", "C"]) 0 ["A1", "B1"]) :=
  ⟨by decide, by decide, (C5_spec ["b", "a", "C"] ["A1", "B1"] (by decide) (by decide)).1⟩

/-! ## Validator sequencing -/

/-- Claim C1 fails as stated: this input has both a category-parity
violation (`"A"` only in categories, `"B"` only in layout) and a
bin-uniqueness violation (`"A1"` listed twice under `"B"`), yet the run
terminates with the category-mismatch report alone; the bin-conflict
diagnostics that `validate_layout_bins_unique` alone would produce are not
part of the outcome. -/
theorem C1_counterexample :
    validate_layout_bins_unique [("B", ["A1", "A1"])] =
      .error (.binConflict [("B", ["A1"])] [("A1", ["B", "B"])]) ∧
    main [("A", [])] [("B", ["A1", "A1"])] = .error (.categoryMismatch ["A"] ["B"]) :=
  ⟨by rfl, by rfl⟩

/-- Claim C1 (amended): each validation check accumulates all violations of
its own kind before failing, but the two checks run sequentially rather
than being merged: whenever any category-parity violation exists, the run
terminates with the complete parity report (both difference lists in full)
and the bin-uniqueness check never reports, even when bin-uniqueness
violations also exist; the bin-uniqueness violations are reported — all of
them — only when category parity holds. -/
theorem C1_spec (categories layout : Dict (List String)) :
    (¬ (only_in_categories categories layout = [] ∧ only_in_layout categories layout = []) →
      main categories layout =
        .error (.categoryMismatch (only_in_categories categories layout)
          (only_in_layout categories layout))) ∧
    (only_in_categories categories layout = [] → only_in_layout categories layout = [] →
      ¬ (category_dupes layout = [] ∧ overlaps layout = []) →
      main categories layout =
        .error (.binConflict (dupes_report layout) (overlaps_report layout))) := by
  constructor
  · intro h
    have hv : validate_same_categories categories layout =
        .error (.categoryMismatch (only_in_categories categories layout)
          (only_in_layout categories layout)) := by
      unfold validate_same_categories
      rw [if_neg h]
    unfold main
    rw [hv]
  · intro h1 h2 h3
    have hv : validate_same_categories categories layout = .ok () := by
      unfold validate_same_categories
      rw [if_pos ⟨h1, h2⟩]
    have hb : validate_layout_bins_unique layout =
        .error (.binConflict (dupes_report layout) (overlaps_report layout)) := by
      unfold validate_layout_bins_unique
      rw [if_neg h3]
    unfold main
    rw [hv, hb]

/-- Witness for C1 (amended): the first part at an input with both
violation kinds (the parity report wins), the second at an input with only
a bin-uniqueness violation. -/
theorem C1_witness :
    main [("A", [])] [("B", ["A1", "A1"])] =
      .error (.categoryMismatch (only_in_categories [("A", [])] [("B", ["A1", "A1"])])
        (only_in_layout [("A", [])] [("B", ["A1", "A1"])])) ∧
    main [("B", [])] [("B", ["A1", "A1"])] =
      .error (.binConflict (dupes_report [("B", ["A1", "A1"])])
        (overlaps_report [("B", ["A1", "A1"])])) :=
  ⟨(C1_spec [("A", [])] [("B", ["A1", "A1"])]).1 (by decide),
   (C1_spec [("B", [])] [("B", ["A1", "A1"])]).2 (by decide) (by decide) (by decide)⟩

/-! ## Bin-to-category lemmas -/

theorem assignBins_ok_isSome (category : String) (bins : List String) :
    ∀ b2c b2c', assignBins category b2c bins = .ok b2c' →
      ∀ x, (b2c'.lookup x).isSome = (b2c.lookup x).isSome := by
  induction bins with
  | nil =>
    intro b2c b2c' h x
    simp only [assignBins, Except.ok.injEq] at h
    subst h
    rfl
  | cons b rest ih =>
    intro b2c b2c' h x
    by_cases hb : (b2c.lookup b).isSome = true
    · rw [assignBins, if_pos hb] at h
      rw [ih _ _ h x, lookup_dictSet]
      by_cases hx : x = b
      · subst hx
        simp [hb]
      · rw [if_neg hx]
    · rw [assignBins, if_neg hb] at h
      exact Except.noConfusion h

theorem assignBins_ok_mem (category : String) (bins : List String) :
    ∀ b2c b2c', assignBins category b2c bins = .ok b2c' →
      ∀ b ∈ bins, (b2c.lookup b).isSome = true := by
  induction bins with
  | nil => intro b2c b2c' _ b hb; simp at hb
  | cons b0 rest ih =>
    intro b2c b2c' h b hb
    by_cases h0 : (b2c.lookup b0).isSome = true
    · rw [assignBins, if_pos h0] at h
      rcases List.mem_cons.mp hb with hb1 | hb1
      · subst hb1; exact h0
      · have := ih _ _ h b hb1
        rw [lookup_dictSet] at this
        by_cases hx : b = b0
        · subst hx; exact h0
        · rwa [if_neg hx] at this
    · rw [assignBins, if_neg h0] at h
      exact Except.noConfusion h

theorem assignBins_error (category : String) (bins : List String) :
    ∀ b2c e, assignBins category b2c bins = .error e →
      ∃ b ∈ bins, e = .outOfRange b ∧ b2c.lookup b = none := by
  induction bins with
  | nil => intro b2c e h; exact Except.noConfusion h
  | cons b0 rest ih =>
    intro b2c e h
    by_cases h0 : (b2c.lookup b0).isSome = true
    · rw [assignBins, if_pos h0] at h
      obtain ⟨b, hb, he, hnone⟩ := ih _ _ h
      rw [lookup_dictSet] at hnone
      by_cases hx : b = b0
      · rw [if_pos hx] at hnone
        exact Option.noConfusion hnone
      · rw [if_neg hx] at hnone
        exact ⟨b, List.mem_cons_of_mem _ hb, he, hnone⟩
    · rw [assignBins, if_neg h0] at h
      have he : e = .outOfRange b0 := by
        simp only [Except.error.injEq] at h
        exact h.symm
      refine ⟨b0, List.mem_cons_self _ _, he, ?_⟩
      exact Option.not_isSome_iff_eq_none.mp h0

theorem assignBins_preserve (category : String) (bins : List String) :
    ∀ b2c b2c', assignBins category b2c bins = .ok b2c' →
      ∀ x, x ∉ bins → b2c'.lookup x = b2c.lookup x := by
  induction bins with
  | nil =>
    intro b2c b2c' h x _
    simp only [assignBins, Except.ok.injEq] at h
    subst h
    rfl
  | cons b0 rest ih =>
    intro b2c b2c' h x hx
    by_cases h0 : (b2c.lookup b0).isSome = true
    · rw [assignBins, if_pos h0] at h
      have hxr : x ∉ rest := fun hr => hx (List.mem_cons_of_mem _ hr)
      have hxb : x ≠ b0 := fun hr => hx (hr ▸ List.mem_cons_self _ _)
      rw [ih _ _ h x hxr, lookup_dictSet, if_neg hxb]
    · rw [assignBins, if_neg h0] at h
      exact Except.noConfusion h

theorem b2cLoop_ok_isSome (layout : Dict (List String)) :
    ∀ b2c b2c', b2cLoop b2c layout = .ok b2c' →
      ∀ x, (b2c'.lookup x).isSome = (b2c.lookup x).isSome := by
  induction layout with
  | nil =>
    intro b2c b2c' h x
    simp only [b2cLoop, Except.ok.injEq] at h
    subst h
    rfl
  | cons p rest ih =>
    obtain ⟨category, bins⟩ := p
    intro b2c b2c' h x
    cases ha : assignBins category b2c bins with
    | error e => rw [b2cLoop, ha] at h; exact Except.noConfusion h
    | ok b2c1 =>
      rw [b2cLoop, ha] at h
      rw [ih _ _ h x, assignBins_ok_isSome category bins _ _ ha x]

theorem b2cLoop_ok_referenced (layout : Dict (List String)) :
    ∀ b2c b2c', b2cLoop b2c layout = .ok b2c' →
      ∀ p ∈ layout, ∀ b ∈ p.2, (b2c.lookup b).isSome = true := by
  induction layout with
  | nil => intro b2c b2c' _ p hp; simp at hp
  | cons q rest ih =>
    obtain ⟨category, bins⟩ := q
    intro b2c b2c' h p hp b hb
    cases ha : assignBins category b2c bins with
    | error e => rw [b2cLoop, ha] at h; exact Except.noConfusion h
    | ok b2c1 =>
      rw [b2cLoop, ha] at h
      rcases List.mem_cons.mp hp with hp1 | hp1
      · subst hp1
        exact assignBins_ok_mem category bins _ _ ha b hb
      · have := ih _ _ h p hp1 b hb
        rwa [assignBins_ok_isSome category bins _ _ ha b] at this

theorem b2cLoop_error (layout : Dict (List String)) :
    ∀ b2c e, b2cLoop b2c layout = .error e →
      ∃ p ∈ layout, ∃ b ∈ p.2, e = .outOfRange b ∧ b2c.lookup b = none := by
  induction layout with
  | nil => intro b2c e h; exact Except.noConfusion h
  | cons q rest ih =>
    obtain ⟨category, bins⟩ := q
    intro b2c e h
    cases ha : assignBins category b2c bins with
    | error e' =>
      rw [b2cLoop, ha] at h
      have he : e = e' := by
        simp only [Except.error.injEq] at h
        exact h.symm
      subst he
      obtain ⟨b, hb, he, hnone⟩ := assignBins_error category bins _ _ ha
      exact ⟨(category, bins), List.mem_cons_self _ _, b, hb, he, hnone⟩
    | ok b2c1 =>
      rw [b2cLoop, ha] at h
      obtain ⟨p, hp, b, hb, he, hnone⟩ := ih _ _ h
      refine ⟨p, List.mem_cons_of_mem _ hp, b, hb, he, ?_⟩
      have hs := assignBins_ok_isSome category bins _ _ ha b
      rw [hnone] at hs
      simp only [Option.isSome_none] at hs
      exact Option.not_isSome_iff_eq_none.mp (by rw [← hs]; simp)

theorem b2cLoop_preserve (layout : Dict (List String)) :
    ∀ b2c b2c', b2cLoop b2c layout = .ok b2c' →
      ∀ x, (∀ p ∈ layout, x ∉ p.2) → b2c'.lookup x = b2c.lookup x := by
  induction layout with
  | nil =>
    intro b2c b2c' h x _
    simp only [b2cLoop, Except.ok.injEq] at h
    subst h
    rfl
  | cons q rest ih =>
    obtain ⟨category, bins⟩ := q
    intro b2c b2c' h x hx
    cases ha : assignBins category b2c bins with
    | error e => rw [b2cLoop, ha] at h; exact Except.noConfusion h
    | ok b2c1 =>
      rw [b2cLoop, ha] at h
      rw [ih _ _ h x (fun p hp => hx p (List.mem_cons_of_mem _ hp)),
        assignBins_preserve category bins _ _ ha x (hx (category, bins) (List.mem_cons_self _ _))]

theorem b2cLoop_error_of_missing (layout : Dict (List String)) (b2c : Dict String)
    (hmiss : ∃ p ∈ layout, ∃ b ∈ p.2, b2c.lookup b = none) :
    ∃ e, b2cLoop b2c layout = .error e := by
  cases hres : b2cLoop b2c layout with
  | error e => exact ⟨e, rfl⟩
  | ok b2c' =>
    obtain ⟨p, hp, b, hb, hnone⟩ := hmiss
    have := b2cLoop_ok_referenced layout b2c b2c' hres p hp b hb
    rw [hnone] at this
    exact Bool.noConfusion this

theorem bbc_init_lookup (all_bins : List String) (x : String) :
    ((all_bins.foldl (fun d b => dictSet d b "UNUSED") []).lookup x) =
      if x ∈ all_bins then some "UNUSED" else none := by
  rw [lookup_foldl_dictSet_const]
  rfl

theorem bbc_ok_domain {all_bins : List String} {layout : Dict (List String)}
    {b2c : Dict String} (h : build_bin_to_category all_bins layout = .ok b2c) (x : String) :
    ((b2c.lookup x).isSome = true) ↔ x ∈ all_bins := by
  have h1 := b2cLoop_ok_isSome layout _ b2c h x
  rw [h1, bbc_init_lookup]
  by_cases hx : x ∈ all_bins <;> simp [hx]

theorem bbc_ok_referenced_mem {all_bins : List String} {layout : Dict (List String)}
    {b2c : Dict String} (h : build_bin_to_category all_bins layout = .ok b2c) :
    ∀ p ∈ layout, ∀ b ∈ p.2, b ∈ all_bins := by
  intro p hp b hb
  have h1 := b2cLoop_ok_referenced layout _ b2c h p hp b hb
  rw [bbc_init_lookup] at h1
  by_cases hx : b ∈ all_bins
  · exact hx
  · rw [if_neg hx] at h1
    exact Bool.noConfusion h1

theorem bbc_error {all_bins : List String} {layout : Dict (List String)} {e : PipeError}
    (h : build_bin_to_category all_bins layout = .error e) :
    ∃ p ∈ layout, ∃ b ∈ p.2, e = .outOfRange b ∧ b ∉ all_bins := by
  obtain ⟨p, hp, b, hb, he, hnone⟩ := b2cLoop_error layout _ e h
  rw [bbc_init_lookup] at hnone
  refine ⟨p, hp, b, hb, he, ?_⟩
  intro hmem
  rw [if_pos hmem] at hnone
  exact Option.noConfusion hnone

theorem bbc_error_of_out {all_bins : List String} {layout : Dict (List String)}
    (hmiss : ∃ p ∈ layout, ∃ b ∈ p.2, b ∉ all_bins) :
    ∃ e, build_bin_to_category all_bins layout = .error e := by
  obtain ⟨p, hp, b, hb, hout⟩ := hmiss
  exact b2cLoop_error_of_missing layout _
    ⟨p, hp, b, hb, by rw [bbc_init_lookup, if_neg hout]⟩

theorem bbc_unreferenced {all_bins : List String} {layout : Dict (List String)}
    {b2c : Dict String} (h : build_bin_to_category all_bins layout = .ok b2c) (x : String)
    (hx : x ∈ all_bins) (hunref : ∀ p ∈ layout, x ∉ p.2) :
    b2c.lookup x = some "UNUSED" := by
  rw [b2cLoop_preserve layout _ b2c h x hunref, bbc_init_lookup, if_pos hx]

/-! ## Sorter construction lemmas -/

theorem prefill_lookup (b2c : Dict String) (bins : List String) :
    ∀ acc s, prefill b2c acc bins = .ok s →
      ∀ x, s.lookup x =
        if x ∈ bins then (b2c.lookup x).map (fun c => ⟨c, []⟩) else acc.lookup x := by
  induction bins with
  | nil =>
    intro acc s h x
    simp only [prefill, Except.ok.injEq] at h
    subst h
    simp
  | cons b rest ih =>
    intro acc s h x
    cases hg : dictGet b2c b with
    | error e => rw [prefill, hg] at h; exact Except.noConfusion h
    | ok c =>
      rw [prefill, hg] at h
      have hc : b2c.lookup b = some c := (dictGet_ok_iff _ _ _).mp hg
      rw [ih _ _ h x]
      by_cases hxr : x ∈ rest
      · rw [if_pos hxr, if_pos (List.mem_cons_of_mem _ hxr)]
      · rw [if_neg hxr, lookup_dictSet]
        by_cases hxb : x = b
        · subst hxb
          rw [if_pos rfl, if_pos (List.mem_cons_self _ _), hc]
          rfl
        · rw [if_neg hxb, if_neg (by simp [hxb, hxr])]

theorem prefill_error (b2c : Dict String) (bins : List String) :
    ∀ acc e, prefill b2c acc bins = .error e →
      ∃ b ∈ bins, e = .keyError b ∧ b2c.lookup b = none := by
  induction bins with
  | nil => intro acc e h; exact Except.noConfusion h
  | cons b rest ih =>
    intro acc e h
    cases hg : dictGet b2c b with
    | error e' =>
      rw [prefill, hg] at h
      have he : e = e' := by
        simp only [Except.error.injEq] at h
        exact h.symm
      obtain ⟨hnone, hke⟩ := (dictGet_error_iff _ _ _).mp hg
      exact ⟨b, List.mem_cons_self _ _, he.trans hke, hnone⟩
    | ok c =>
      rw [prefill, hg] at h
      obtain ⟨b', hb', he, hnone⟩ := ih _ _ h
      exact ⟨b', List.mem_cons_of_mem _ hb', he, hnone⟩

theorem prefill_entries (b2c : Dict String) (bins : List String) :
    ∀ acc s, prefill b2c acc bins = .ok s →
      (∀ p ∈ acc, (Prod.snd p).items = []) → ∀ p ∈ s, (Prod.snd p).items = [] := by
  induction bins with
  | nil =>
    intro acc s h hacc
    simp only [prefill, Except.ok.injEq] at h
    subst h
    exact hacc
  | cons b rest ih =>
    intro acc s h hacc
    cases hg : dictGet b2c b with
    | error e => rw [prefill, hg] at h; exact Except.noConfusion h
    | ok c =>
      rw [prefill, hg] at h
      refine ih _ _ h ?_
      intro p hp
      rcases mem_dictSet hp with hp1 | hp1
      · exact hacc p hp1
      · rw [hp1]

theorem applyFill_preserve (filled : Dict (List String)) (bins : List String) :
    ∀ sorter s, applyFill filled sorter bins = .ok s →
      ∀ x, x ∉ bins → s.lookup x = sorter.lookup x := by
  induction bins with
  | nil =>
    intro sorter s h x _
    simp only [applyFill, Except.ok.injEq] at h
    subst h
    rfl
  | cons b rest ih =>
    intro sorter s h x hx
    cases hg : dictGet sorter b with
    | error e => rw [applyFill, hg] at h; exact Except.noConfusion h
    | ok r =>
      rw [applyFill, hg] at h
      have hxr : x ∉ rest := fun hr => hx (List.mem_cons_of_mem _ hr)
      have hxb : x ≠ b := fun hr => hx (hr ▸ List.mem_cons_self _ _)
      rw [ih _ _ h x hxr, lookup_dictSet, if_neg hxb]

theorem applyFill_isSome (filled : Dict (List String)) (bins : List String) :
    ∀ sorter s, applyFill filled sorter bins = .ok s →
      ∀ x, (s.lookup x).isSome = (sorter.lookup x).isSome := by
  induction bins with
  | nil =>
    intro sorter s h x
    simp only [applyFill, Except.ok.injEq] at h
    subst h
    rfl
  | cons b rest ih =>
    intro sorter s h x
    cases hg : dictGet sorter b with
    | error e => rw [applyFill, hg] at h; exact Except.noConfusion h
    | ok r =>
      rw [applyFill, hg] at h
      rw [ih _ _ h x, lookup_dictSet]
      by_cases hxb : x = b
      · subst hxb
        rw [if_pos rfl]
        have := (dictGet_ok_iff sorter x r).mp hg
        rw [this]
        rfl
      · rw [if_neg hxb]

theorem applyFill_error (filled : Dict (List String)) (bins : List String) :
    ∀ sorter e, applyFill filled sorter bins = .error e →
      ∃ b ∈ bins, e = .keyError b ∧ sorter.lookup b = none := by
  induction bins with
  | nil => intro sorter e h; exact Except.noConfusion h
  | cons b rest ih =>
    intro sorter e h
    cases hg : dictGet sorter b with
    | error e' =>
      rw [applyFill, hg] at h
      have he : e = e' := by
        simp only [Except.error.injEq] at h
        exact h.symm
      obtain ⟨hnone, hke⟩ := (dictGet_error_iff _ _ _).mp hg
      exact ⟨b, List.mem_cons_self _ _, he.trans hke, hnone⟩
    | ok r =>
      rw [applyFill, hg] at h
      obtain ⟨b', hb', he, hnone⟩ := ih _ _ h
      rw [lookup_dictSet] at hnone
      by_cases hxb : b' = b
      · rw [if_pos hxb] at hnone
        exact Option.noConfusion hnone
      · rw [if_neg hxb] at hnone
        exact ⟨b', List.mem_cons_of_mem _ hb', he, hnone⟩

/-- Every record of the sorter table has at most `BIN_CAPACITY` items, none
of them the empty string. -/
def ItemsOK (s : Dict BinRec) : Prop :=
  ∀ p ∈ s, (Prod.snd p).items.length ≤ BIN_CAPACITY ∧ ∀ x ∈ (Prod.snd p).items, x ≠ ""

theorem foldl_dictSet_const_entries {α : Type} (v : α) (xs : List String) :
    ∀ d, (∀ q ∈ d, Prod.snd q = v) →
      ∀ q ∈ xs.foldl (fun d' b => dictSet d' b v) d, Prod.snd q = v := by
  induction xs with
  | nil => intro d hd q hq; exact hd q hq
  | cons b rest ih =>
    intro d hd q hq
    refine ih _ ?_ q hq
    intro q' hq'
    rcases mem_dictSet hq' with h1 | h1
    · exact hd q' h1
    · rw [h1]

theorem fillLoop_entries (sorted : List String) (bins : List String) :
    ∀ out i, (∀ q ∈ out, (Prod.snd q).length ≤ BIN_CAPACITY ∧ ∀ x ∈ Prod.snd q, x ∈ sorted) →
      ∀ q ∈ fillLoop sorted out i bins,
        (Prod.snd q).length ≤ BIN_CAPACITY ∧ ∀ x ∈ Prod.snd q, x ∈ sorted := by
  induction bins with
  | nil => intro out i hout q hq; exact hout q hq
  | cons b rest ih =>
    intro out i hout q hq
    have hslice : (sliceChunk sorted i).length ≤ BIN_CAPACITY ∧
        ∀ x ∈ sliceChunk sorted i, x ∈ sorted := by
      constructor
      · unfold sliceChunk
        rw [List.length_take]
        exact min_le_left _ _
      · intro x hx
        exact List.mem_of_mem_drop (List.mem_of_mem_take hx)
    have hout' : ∀ q' ∈ dictSet out b (sliceChunk sorted i),
        (Prod.snd q').length ≤ BIN_CAPACITY ∧ ∀ x ∈ Prod.snd q', x ∈ sorted := by
      intro q' hq'
      rcases mem_dictSet hq' with h1 | h1
      · exact hout q' h1
      · rw [h1]
        exact hslice
    rw [fillLoop] at hq
    by_cases hlen : sorted.length ≤ i + BIN_CAPACITY
    · rw [if_pos hlen] at hq
      exact hout' q hq
    · rw [if_neg hlen] at hq
      exact ih _ _ hout' q hq

theorem fill_bins_values {items bins : List String} {filled : Dict (List String)}
    (h : fill_bins_for_category items bins = .ok filled) :
    ∀ q ∈ filled, (Prod.snd q).length ≤ BIN_CAPACITY ∧ ∀ x ∈ Prod.snd q, x ∈ items := by
  unfold fill_bins_for_category at h
  by_cases hc : bins.length * BIN_CAPACITY < (sortItems items).length
  · rw [if_pos hc] at h
    exact Except.noConfusion h
  · rw [if_neg hc] at h
    simp only [Except.ok.injEq] at h
    subst h
    intro q hq
    have hinit : ∀ q' ∈ bins.foldl (fun d b => dictSet d b ([] : List String)) [],
        (Prod.snd q').length ≤ BIN_CAPACITY ∧ ∀ x ∈ Prod.snd q', x ∈ sortItems items := by
      intro q' hq'
      have := foldl_dictSet_const_entries ([] : List String) bins [] (by simp) q' hq'
      rw [this]
      exact ⟨by simp, by simp⟩
    have hres := fillLoop_entries (sortItems items) bins _ 0 hinit q hq
    exact ⟨hres.1, fun x hx => (sortItems_perm items).mem_iff.mp (hres.2 x hx)⟩

theorem fill_bins_error_shape {items bins : List String} {e : PipeError}
    (h : fill_bins_for_category items bins = .error e) :
    e = .capacity items.length (bins.length * BIN_CAPACITY) bins := by
  unfold fill_bins_for_category at h
  by_cases hc : bins.length * BIN_CAPACITY < (sortItems items).length
  · rw [if_pos hc] at h
    simp only [Except.error.injEq] at h
    rw [← h, sortItems_length]
  · rw [if_neg hc] at h
    exact Except.noConfusion h

theorem applyFill_ItemsOK (filled : Dict (List String)) (bins : List String)
    (items : List String)
    (hfill : ∀ q ∈ filled, (Prod.snd q).length ≤ BIN_CAPACITY ∧ ∀ x ∈ Prod.snd q, x ∈ items)
    (hitems : ∀ x ∈ items, x ≠ "") :
    ∀ sorter s, applyFill filled sorter bins = .ok s → ItemsOK sorter → ItemsOK s := by
  induction bins with
  | nil =>
    intro sorter s h hok
    simp only [applyFill, Except.ok.injEq] at h
    subst h
    exact hok
  | cons b rest ih =>
    intro sorter s h hok
    cases hg : dictGet sorter b with
    | error e => rw [applyFill, hg] at h; exact Except.noConfusion h
    | ok r =>
      rw [applyFill, hg] at h
      refine ih _ _ h ?_
      intro p hp
      rcases mem_dictSet hp with h1 | h1
      · exact hok p h1
      · rw [h1]
        cases hf : filled.lookup b with
        | none => simp [hf]
        | some l =>
          have hl := hfill (b, l) (lookup_mem hf)
          simp only [hf, Option.getD_some]
          exact ⟨hl.1, fun x hx => hitems x (hl.2 x hx)⟩

theorem fillCategories_preserve (categories : Dict (List String))
    (layout : Dict (List String)) :
    ∀ sorter s, fillCategories categories sorter layout = .ok s →
      ∀ x, (∀ p ∈ layout, x ∉ p.2) → s.lookup x = sorter.lookup x := by
  induction layout with
  | nil =>
    intro sorter s h x _
    simp only [fillCategories, Except.ok.injEq] at h
    subst h
    rfl
  | cons q rest ih =>
    obtain ⟨category, bins⟩ := q
    intro sorter s h x hx
    cases hg : dictGet categories category with
    | error e => simp only [fillCategories, hg] at h; exact Except.noConfusion h
    | ok items =>
      cases hfb : fill_bins_for_category items bins with
      | error e => simp only [fillCategories, hg, hfb] at h; exact Except.noConfusion h
      | ok filled =>
        cases haf : applyFill filled sorter bins with
        | error e => simp only [fillCategories, hg, hfb, haf] at h; exact Except.noConfusion h
        | ok sorter' =>
          simp only [fillCategories, hg, hfb, haf] at h
          rw [ih _ _ h x (fun p hp => hx p (List.mem_cons_of_mem _ hp)),
            applyFill_preserve filled bins _ _ haf x
              (hx (category, bins) (List.mem_cons_self _ _))]

theorem fillCategories_isSome (categories : Dict (List String))
    (layout : Dict (List String)) :
    ∀ sorter s, fillCategories categories sorter layout = .ok s →
      ∀ x, (s.lookup x).isSome = (sorter.lookup x).isSome := by
  induction layout with
  | nil =>
    intro sorter s h x
    simp only [fillCategories, Except.ok.injEq] at h
    subst h
    rfl
  | cons q rest ih =>
    obtain ⟨category, bins⟩ := q
    intro sorter s h x
    cases hg : dictGet categories category with
    | error e => simp only [fillCategories, hg] at h; exact Except.noConfusion h
    | ok items =>
      cases hfb : fill_bins_for_category items bins with
      | error e => simp only [fillCategories, hg, hfb] at h; exact Except.noConfusion h
      | ok filled =>
        cases haf : applyFill filled sorter bins with
        | error e => simp only [fillCategories, hg, hfb, haf] at h; exact Except.noConfusion h
        | ok sorter' =>
          simp only [fillCategories, hg, hfb, haf] at h
          rw [ih _ _ h x, applyFill_isSome filled bins _ _ haf x]

theorem fillCategories_ItemsOK (categories : Dict (List String))
    (layout : Dict (List String))
    (hcats : ∀ p ∈ categories, ∀ x ∈ Prod.snd p, x ≠ "") :
    ∀ sorter s, fillCategories categories sorter layout = .ok s →
      ItemsOK sorter → ItemsOK s := by
  induction layout with
  | nil =>
    intro sorter s h hok
    simp only [fillCategories, Except.ok.injEq] at h
    subst h
    exact hok
  | cons q rest ih =>
    obtain ⟨category, bins⟩ := q
    intro sorter s h hok
    cases hg : dictGet categories category with
    | error e => simp only [fillCategories, hg] at h; exact Except.noConfusion h
    | ok items =>
      cases hfb : fill_bins_for_category items bins with
      | error e => simp only [fillCategories, hg, hfb] at h; exact Except.noConfusion h
      | ok filled =>
        cases haf : applyFill filled sorter bins with
        | error e => simp only [fillCategories, hg, hfb, haf] at h; exact Except.noConfusion h
        | ok sorter' =>
          simp only [fillCategories, hg, hfb, haf] at h
          have hitems : ∀ x ∈ items, x ≠ "" :=
            hcats (category, items) (lookup_mem ((dictGet_ok_iff _ _ _).mp hg))
          exact ih _ _ h
            (applyFill_ItemsOK filled bins items (fill_bins_values hfb) hitems _ _ haf hok)

theorem fillCategories_error (categories : Dict (List String))
    (layout : Dict (List String)) :
    ∀ sorter e, fillCategories categories sorter layout = .error e →
      isPackingError e ∨
      (∃ k, e = .keyError k ∧
        ((categories.lookup k = none ∧ k ∈ keysOf layout) ∨
         (sorter.lookup k = none ∧ ∃ p ∈ layout, k ∈ p.2))) := by
  induction layout with
  | nil => intro sorter e h; exact Except.noConfusion h
  | cons q rest ih =>
    obtain ⟨category, bins⟩ := q
    intro sorter e h
    cases hg : dictGet categories category with
    | error e' =>
      simp only [fillCategories, hg, Except.error.injEq] at h
      obtain ⟨hnone, hke⟩ := (dictGet_error_iff _ _ _).mp hg
      refine Or.inr ⟨category, h ▸ hke, Or.inl ⟨hnone, ?_⟩⟩
      simp [keysOf]
    | ok items =>
      cases hfb : fill_bins_for_category items bins with
      | error e' =>
        simp only [fillCategories, hg, hfb, Except.error.injEq] at h
        rw [← h, fill_bins_error_shape hfb]
        exact Or.inl trivial
      | ok filled =>
        cases haf : applyFill filled sorter bins with
        | error e' =>
          simp only [fillCategories, hg, hfb, haf, Except.error.injEq] at h
          obtain ⟨b, hb, hke, hnone⟩ := applyFill_error filled bins _ _ haf
          exact Or.inr ⟨b, h ▸ hke,
            Or.inr ⟨hnone, (category, bins), List.mem_cons_self _ _, hb⟩⟩
        | ok sorter' =>
          simp only [fillCategories, hg, hfb, haf] at h
          rcases ih _ _ h with hpack | ⟨k, hke, hcase⟩
          · exact Or.inl hpack
          · refine Or.inr ⟨k, hke, ?_⟩
            rcases hcase with ⟨hnone, hmem⟩ | ⟨hnone, p, hp, hk⟩
            · exact Or.inl ⟨hnone, by simp [keysOf]; right; simpa [keysOf] using hmem⟩
            · refine Or.inr ⟨?_, p, List.mem_cons_of_mem _ hp, hk⟩
              have hs := applyFill_isSome filled bins _ _ haf k
              rw [hnone] at hs
              simp only [Option.isSome_none] at hs
              cases hsk : sorter.lookup k with
              | none => rfl
              | some v => rw [hsk] at hs; exact Bool.noConfusion hs.symm

theorem bfs_ok_parts {categories layout : Dict (List String)} {all_bins : List String}
    {sorter : Dict BinRec}
    (h : build_full_sorter categories layout all_bins = .ok sorter) :
    ∃ b2c sorter0, build_bin_to_category all_bins layout = .ok b2c ∧
      prefill b2c [] all_bins = .ok sorter0 ∧
      fillCategories categories sorter0 layout = .ok sorter := by
  cases h1 : build_bin_to_category all_bins layout with
  | error e => simp only [build_full_sorter, h1] at h; exact Except.noConfusion h
  | ok b2c =>
    cases h2 : prefill b2c [] all_bins with
    | error e => simp only [build_full_sorter, h1, h2] at h; exact Except.noConfusion h
    | ok sorter0 =>
      simp only [build_full_sorter, h1, h2] at h
      exact ⟨b2c, sorter0, rfl, h2, h⟩

theorem bfs_unref_lookup {categories layout : Dict (List String)} {all_bins : List String}
    {sorter : Dict BinRec}
    (h : build_full_sorter categories layout all_bins = .ok sorter) (b : String)
    (hb : b ∈ all_bins) (hunref : ∀ p ∈ layout, b ∉ p.2) :
    sorter.lookup b = some ⟨"UNUSED", []⟩ := by
  obtain ⟨b2c, s0, h1, h2, h3⟩ := bfs_ok_parts h
  have hs0 : s0.lookup b = some ⟨"UNUSED", []⟩ := by
    rw [prefill_lookup b2c all_bins [] s0 h2 b, if_pos hb, bbc_unreferenced h1 b hb hunref]
    rfl
  rw [fillCategories_preserve _ _ _ _ h3 b hunref, hs0]

theorem bfs_domain {categories layout : Dict (List String)} {all_bins : List String}
    {sorter : Dict BinRec}
    (h : build_full_sorter categories layout all_bins = .ok sorter) (x : String) :
    ((sorter.lookup x).isSome = true) ↔ x ∈ all_bins := by
  obtain ⟨b2c, s0, h1, h2, h3⟩ := bfs_ok_parts h
  rw [fillCategories_isSome _ _ _ _ h3 x, prefill_lookup b2c all_bins [] s0 h2 x]
  by_cases hx : x ∈ all_bins
  · rw [if_pos hx]
    cases hb2 : b2c.lookup x with
    | none =>
      exfalso
      have hdom := (bbc_ok_domain h1 x).mpr hx
      rw [hb2] at hdom
      exact Bool.noConfusion hdom
    | some c => simp [hx]
  · rw [if_neg hx]
    constructor
    · intro hcontra
      exact Bool.noConfusion hcontra
    · intro hmem
      exact absurd hmem hx

theorem bfs_ItemsOK {categories layout : Dict (List String)} {all_bins : List String}
    {sorter : Dict BinRec}
    (hcats : ∀ p ∈ categories, ∀ x ∈ Prod.snd p, x ≠ "")
    (h : build_full_sorter categories layout all_bins = .ok sorter) : ItemsOK sorter := by
  obtain ⟨b2c, s0, h1, h2, h3⟩ := bfs_ok_parts h
  have hs0 : ItemsOK s0 := by
    intro p hp
    rw [prefill_entries b2c all_bins [] s0 h2 (by simp) p hp]
    exact ⟨by simp, by simp⟩
  exact fillCategories_ItemsOK _ _ hcats _ _ h3 hs0

theorem validate_ok_keys {categories layout : Dict (List String)}
    (h : validate_same_categories categories layout = .ok ()) :
    ∀ k ∈ keysOf layout, k ∈ keysOf categories := by
  unfold validate_same_categories at h
  by_cases hc : only_in_categories categories layout = [] ∧
      only_in_layout categories layout = []
  · intro k hk
    by_contra hnk
    have hmem : k ∈ only_in_layout categories layout := by
      unfold only_in_layout
      rw [(sortItems_perm _).mem_iff]
      simp [List.mem_filter, hk, hnk]
    rw [hc.2] at hmem
    simp at hmem
  · rw [if_neg hc] at h
    exact Except.noConfusion h

/-- Claim C10: once category-parity validation has succeeded, every lookup
of a layout category's item list inside `build_full_sorter` succeeds, and
so does every internal table lookup: the packing stage can only fail with
an out-of-range error or a capacity error, never with a missing-key error. -/
theorem C10_spec (categories layout : Dict (List String)) (all_bins : List String)
    (hv : validate_same_categories categories layout = .ok ()) (e : PipeError)
    (he : build_full_sorter categories layout all_bins = .error e) :
    isPackingError e := by
  cases h1 : build_bin_to_category all_bins layout with
  | error e1 =>
    simp only [build_full_sorter, h1, Except.error.injEq] at he
    obtain ⟨p, hp, b, hb, hsh, _⟩ := bbc_error h1
    rw [← he, hsh]
    trivial
  | ok b2c =>
    cases h2 : prefill b2c [] all_bins with
    | error e2 =>
      simp only [build_full_sorter, h1, h2, Except.error.injEq] at he
      obtain ⟨b, hb, hsh, hnone⟩ := prefill_error b2c all_bins [] e2 h2
      exfalso
      have hdom := (bbc_ok_domain h1 b).mpr hb
      rw [hnone] at hdom
      exact Bool.noConfusion hdom
    | ok s0 =>
      simp only [build_full_sorter, h1, h2] at he
      rcases fillCategories_error categories layout s0 e he with hpack | ⟨k, hke, hcase⟩
      · exact hpack
      · exfalso
        rcases hcase with ⟨hnone, hmem⟩ | ⟨hnone, p, hp, hk⟩
        · have h4 := validate_ok_keys hv k hmem
          have h5 := (lookup_isSome_iff_mem_keys categories k).mpr h4
          rw [hnone] at h5
          exact Bool.noConfusion h5
        · have h4 := bbc_ok_referenced_mem h1 p hp k hk
          have h5 : (s0.lookup k).isSome = true := by
            rw [prefill_lookup b2c all_bins [] s0 h2 k, if_pos h4]
            cases hb2 : b2c.lookup k with
            | none =>
              have hdom := (bbc_ok_domain h1 k).mpr h4
              rw [hb2] at hdom
              exact Bool.noConfusion hdom
            | some c => rfl
          rw [hnone] at h5
          exact Bool.noConfusion h5

/-- Witness for C10: parity holds, and the packing stage fails — with a
capacity error (10 items into one bin), not a missing-key error. -/
theorem C10_witness :
    validate_same_categories
      [("T", ["i1", "i2", "i3", "i4", "i5", "i6", "i7", "i8", "i9", "i10"])]
      [("T", ["A1"])] = .ok () ∧
    build_full_sorter
      [("T", ["i1", "i2", "i3", "i4", "i5", "i6", "i7", "i8", "i9", "i10"])]
      [("T", ["A1"])] (generate_all_bins 'A' 'X') = .error (.capacity 10 9 ["A1"]) ∧
    isPackingError (.capacity 10 9 ["A1"]) :=
  ⟨by rfl, by rfl,
   C10_spec [("T", ["i1", "i2", "i3", "i4", "i5", "i6", "i7", "i8", "i9", "i10"])]
     [("T", ["A1"])] (generate_all_bins 'A' 'X') (by rfl) (.capacity 10 9 ["A1"]) (by rfl)⟩

/-! ## Writer lemmas -/

theorem emitBin_ok {counter : Nat} {binId : String} {r : BinRec} {rows : List Row}
    (h : emitBin counter binId r = .ok rows) :
    ∃ cc, parse_bin binId = .ok cc ∧
      rows = (List.range BIN_CAPACITY).map (mkRow counter binId cc.1 cc.2 r) := by
  cases hp : parse_bin binId with
  | error e => simp only [emitBin, hp] at h; exact Except.noConfusion h
  | ok cc =>
    simp only [emitBin, hp, Except.ok.injEq] at h
    exact ⟨cc, rfl, h.symm⟩

theorem writeLoop_cons_ok {sorter : Dict BinRec} {counter : Nat} {b : String}
    {rest : List String} {rows : List Row}
    (h : writeLoop sorter counter (b :: rest) = .ok rows) :
    ∃ r rows1 tail, dictGet sorter b = .ok r ∧ emitBin counter b r = .ok rows1 ∧
      writeLoop sorter (counter + BIN_CAPACITY) rest = .ok tail ∧ rows = rows1 ++ tail := by
  cases hg : dictGet sorter b with
  | error e => simp only [writeLoop, hg] at h; exact Except.noConfusion h
  | ok r =>
    cases he : emitBin counter b r with
    | error e => simp only [writeLoop, hg, he] at h; exact Except.noConfusion h
    | ok rows1 =>
      cases hw : writeLoop sorter (counter + BIN_CAPACITY) rest with
      | error e => simp only [writeLoop, hg, he, hw] at h; exact Except.noConfusion h
      | ok tail =>
        simp only [writeLoop, hg, he, hw, Except.ok.injEq] at h
        exact ⟨r, rows1, tail, rfl, he, rfl, h.symm⟩

theorem writeLoop_length {sorter : Dict BinRec} :
    ∀ (bins : List String) (counter : Nat) (rows : List Row),
      writeLoop sorter counter bins = .ok rows →
      rows.length = BIN_CAPACITY * bins.length := by
  intro bins
  induction bins with
  | nil =>
    intro counter rows h
    simp only [writeLoop, Except.ok.injEq] at h
    subst h
    simp
  | cons b rest ih =>
    intro counter rows h
    obtain ⟨r, rows1, tail, hg, he, hw, hrows⟩ := writeLoop_cons_ok h
    obtain ⟨cc, hp, hrows1⟩ := emitBin_ok he
    subst hrows hrows1
    rw [List.length_append, List.length_map, List.length_range, ih _ _ hw, List.length_cons]
    ring

theorem writeLoop_seg {sorter : Dict BinRec} :
    ∀ (bins : List String) (counter : Nat) (rows : List Row),
      writeLoop sorter counter bins = .ok rows →
      ∀ k b, bins.get? k = some b →
        ∃ r cc, dictGet sorter b = .ok r ∧ parse_bin b = .ok cc ∧
          (rows.drop (BIN_CAPACITY * k)).take BIN_CAPACITY =
            (List.range BIN_CAPACITY).map
              (mkRow (counter + BIN_CAPACITY * k) b cc.1 cc.2 r) := by
  intro bins
  induction bins with
  | nil => intro counter rows h k b hk; simp at hk
  | cons b0 rest ih =>
    intro counter rows h k b hk
    obtain ⟨r0, rows1, tail, hg, he, hw, hrows⟩ := writeLoop_cons_ok h
    obtain ⟨cc0, hp0, hrows1⟩ := emitBin_ok he
    subst hrows hrows1
    have hlen1 : ((List.range BIN_CAPACITY).map (mkRow counter b0 cc0.1 cc0.2 r0)).length =
        BIN_CAPACITY := by simp
    cases k with
    | zero =>
      simp only [List.get?_cons_zero, Option.some.injEq] at hk
      subst hk
      refine ⟨r0, cc0, hg, hp0, ?_⟩
      have hc0 : counter + BIN_CAPACITY * 0 = counter := by ring
      rw [hc0, Nat.mul_zero, List.drop_zero, List.take_left' hlen1]
    | succ k' =>
      rw [List.get?_cons_succ] at hk
      obtain ⟨r, cc, hgr, hpr, hseg⟩ := ih (counter + BIN_CAPACITY) tail hw k' b hk
      refine ⟨r, cc, hgr, hpr, ?_⟩
      have hge : BIN_CAPACITY ≤ BIN_CAPACITY * (k' + 1) := by
        calc BIN_CAPACITY = BIN_CAPACITY * 1 := by ring
        _ ≤ BIN_CAPACITY * (k' + 1) := Nat.mul_le_mul_left _ (by omega)
      have hsub : BIN_CAPACITY * (k' + 1) - BIN_CAPACITY = BIN_CAPACITY * k' := by
        rw [Nat.mul_succ, Nat.add_sub_cancel]
      have hdrop : (((List.range BIN_CAPACITY).map (mkRow counter b0 cc0.1 cc0.2 r0)) ++
            tail).drop (BIN_CAPACITY * (k' + 1)) = tail.drop (BIN_CAPACITY * k') := by
        rw [List.drop_append_eq_append_drop, List.drop_eq_nil_of_le (by rw [hlen1]; exact hge),
          hlen1, hsub, List.nil_append]
      rw [hdrop]
      have harith : counter + BIN_CAPACITY + BIN_CAPACITY * k' =
          counter + BIN_CAPACITY * (k' + 1) := by ring
      rw [← harith]
      exact hseg

theorem writeLoop_row {sorter : Dict BinRec} {bins : List String} {counter : Nat}
    {rows : List Row} (h : writeLoop sorter counter bins = .ok rows)
    {k : Nat} {b : String} (hk : bins.get? k = some b) {j : Nat} (hj : j < BIN_CAPACITY) :
    ∃ r cc, dictGet sorter b = .ok r ∧ parse_bin b = .ok cc ∧
      rows.get? (BIN_CAPACITY * k + j) =
        some (mkRow (counter + BIN_CAPACITY * k) b cc.1 cc.2 r j) := by
  obtain ⟨r, cc, hg, hp, hseg⟩ := writeLoop_seg bins counter rows h k b hk
  refine ⟨r, cc, hg, hp, ?_⟩
  have h1 : rows.get? (BIN_CAPACITY * k + j) =
      ((rows.drop (BIN_CAPACITY * k)).take BIN_CAPACITY).get? j := by
    rw [List.get?_take hj, List.get?_drop]
  rw [h1, hseg, List.get?_map, List.get?_range hj]
  rfl

theorem main_ok_parts {categories layout : Dict (List String)} {rows : List Row}
    (h : main categories layout = .ok rows) :
    validate_same_categories categories layout = .ok () ∧
    validate_layout_bins_unique layout = .ok () ∧
    ∃ sorter, build_full_sorter categories layout (generate_all_bins 'A' 'X') = .ok sorter ∧
      writeLoop sorter 1 (generate_all_bins 'A' 'X') = .ok rows := by
  cases h1 : validate_same_categories categories layout with
  | error e => simp only [main, h1] at h; exact Except.noConfusion h
  | ok u =>
    cases u
    cases h2 : validate_layout_bins_unique layout with
    | error e => simp only [main, h1, h2] at h; exact Except.noConfusion h
    | ok u2 =>
      cases u2
      cases h3 : build_full_sorter categories layout (generate_all_bins 'A' 'X') with
      | error e => simp only [main, h1, h2, h3] at h; exact Except.noConfusion h
      | ok sorter =>
        simp only [main, h1, h2, h3, write_exhaustive_chest_csv] at h
        exact ⟨rfl, rfl, sorter, rfl, h⟩

theorem getD_replicate_self {α : Type} (a : α) :
    ∀ (n j : Nat), (List.replicate n a).getD j a = a := by
  intro n
  induction n with
  | zero => intro j; rfl
  | succ m ih =>
    intro j
    cases j with
    | zero => rfl
    | succ j' => exact ih j'

/-- Claim C6: for every valid input with the default A..X letter range, the
manifest holds exactly 24 × 2 × 9 = 432 data rows; row `i` (0-based)
carries the global counter value `i + 1` (so the counter runs 1, 2, 3, …
strictly increasing with no gaps, duplicates or resets), the slot number
`i % 9 + 1` ascending 1..9 within each bin, and the slot id of generated
bin `i / 9`; the generated bin order is A1, A2, B1, B2, …, X2. -/
theorem C6_spec (categories layout : Dict (List String)) (rows : List Row)
    (h : main categories layout = .ok rows) :
    rows.length = 432 ∧
    (∀ i, i < 432 → ∃ row b, rows.get? i = some row ∧
      (generate_all_bins 'A' 'X').get? (i / 9) = some b ∧
      row.idx = i + 1 ∧ row.number = i % 9 + 1 ∧
      row.chestId = b ++ "-" ++ toString (i % 9 + 1)) ∧
    generate_all_bins 'A' 'X' =
      ["A1", "A2", "B1", "B2", "C1", "C2", "D1", "D2", "E1", "E2", "F1", "F2",
       "G1", "G2", "H1", "H2", "I1", "I2", "J1", "J2", "K1", "K2", "L1", "L2",
       "M1", "M2", "N1", "N2", "O1", "O2", "P1", "P2", "Q1", "Q2", "R1", "R2",
       "S1", "S2", "T1", "T2", "U1", "U2", "V1", "V2", "W1", "W2", "X1", "X2"] := by
  obtain ⟨hv1, hv2, sorter, hb, hw⟩ := main_ok_parts h
  have hbins : (generate_all_bins 'A' 'X').length = 48 := by rfl
  refine ⟨?_, ?_, by rfl⟩
  · rw [writeLoop_length _ _ _ hw]
    rfl
  · intro i hi
    obtain ⟨b, hbget⟩ : ∃ b, (generate_all_bins 'A' 'X').get? (i / 9) = some b := by
      cases hg : (generate_all_bins 'A' 'X').get? (i / 9) with
      | none =>
        rw [List.get?_eq_none] at hg
        rw [hbins] at hg
        omega
      | some b => exact ⟨b, rfl⟩
    have hj : i % 9 < BIN_CAPACITY := by
      show i % 9 < 9
      omega
    obtain ⟨r, cc, hgr, hpr, hrow⟩ := writeLoop_row hw hbget hj
    have hidx : BIN_CAPACITY * (i / 9) + i % 9 = i := by
      show 9 * (i / 9) + i % 9 = i
      omega
    rw [hidx] at hrow
    refine ⟨_, b, hrow, hbget, ?_, ?_, ?_⟩
    · show 1 + BIN_CAPACITY * (i / 9) + i % 9 = i + 1
      show 1 + 9 * (i / 9) + i % 9 = i + 1
      omega
    · rfl
    · rfl

/-- Witness for C6 at the empty mappings: the run succeeds and produces a
432-row manifest with the stated counter, slot and bin-order structure. -/
theorem C6_witness :
    ∃ rows, main [] [] = .ok rows ∧ rows.length = 432 ∧
      (∃ row b, rows.get? 10 = some row ∧
        (generate_all_bins 'A' 'X').get? 1 = some b ∧
        row.idx = 11 ∧ row.number = 2 ∧ row.chestId = b ++ "-" ++ toString 2) := by
  cases h : main ([] : Dict (List String)) [] with
  | error e =>
    have hok : (main ([] : Dict (List String)) []).isOk = true := by decide
    rw [h] at hok
    exact Bool.noConfusion hok
  | ok rows =>
    refine ⟨rows, rfl, (C6_spec [] [] rows h).1, ?_⟩
    have h2 := (C6_spec [] [] rows h).2.1 10 (by omega)
    simpa using h2

/-- Claim C9: every generated bin that no layout category declares still
appears in the output labeled with the sentinel category "UNUSED": each of
its 9 rows (slot offsets 0..8 of bin index `k`) carries category "UNUSED"
and an empty Description. -/
theorem C9_spec (categories layout : Dict (List String)) (rows : List Row)
    (h : main categories layout = .ok rows) (k : Nat) (b : String)
    (hk : (generate_all_bins 'A' 'X').get? k = some b)
    (hunref : ∀ p ∈ layout, b ∉ Prod.snd p) (j : Nat) (hj : j < 9) :
    ∃ row, rows.get? (9 * k + j) = some row ∧
      row.categories = "UNUSED" ∧ row.description = "" := by
  obtain ⟨hv1, hv2, sorter, hb, hw⟩ := main_ok_parts h
  have hmem : b ∈ generate_all_bins 'A' 'X' := List.get?_mem hk
  have hlook : sorter.lookup b = some ⟨"UNUSED", []⟩ := bfs_unref_lookup hb b hmem hunref
  have hj' : j < BIN_CAPACITY := hj
  obtain ⟨r, cc, hgr, hpr, hrow⟩ := writeLoop_row hw hk hj'
  have hr : r = ⟨"UNUSED", []⟩ := by
    have hh := (dictGet_ok_iff sorter b r).mp hgr
    rw [hlook] at hh
    injection hh with hh'
    exact hh'.symm
  subst hr
  refine ⟨_, hrow, rfl, ?_⟩
  show (padItems ([] : List String)).getD j "" = ""
  exact getD_replicate_self "" BIN_CAPACITY j

/-- Witness for C9: with empty input mappings every generated bin is
unassigned; bin "A1" (index 0), slot offset 0, yields an UNUSED row with an
empty Description. -/
theorem C9_witness :
    ∃ rows, main [] [] = .ok rows ∧
      ∃ row, rows.get? 0 = some row ∧ row.categories = "UNUSED" ∧
        row.description = "" := by
  cases h : main ([] : Dict (List String)) [] with
  | error e =>
    have hok : (main ([] : Dict (List String)) []).isOk = true := by decide
    rw [h] at hok
    exact Bool.noConfusion hok
  | ok rows =>
    refine ⟨rows, rfl, ?_⟩
    have hres := C9_spec [] [] rows h 0 "A1" (by rfl) (by simp) 0 (by omega)
    simpa using hres

/-- Claim C3 fails as stated: an item name may be the empty string, which
the pipeline accepts as valid input. With the single item `""` assigned to
bin `A1`, one item is assigned to `A1` but all 9 of that bin's Description
fields are empty: the count of non-empty Descriptions is 0 ≠ min(9, 1). -/
theorem C3_counterexample :
    (build_full_sorter [("T", [""])] [("T", ["A1"])]
        (generate_all_bins 'A' 'X')).toOption.map (fun s => s.lookup "A1") =
      some (some ⟨"T", [""]⟩) ∧
    (main [("T", [""])] [("T", ["A1"])]).toOption.map
      (fun rows => ((rows.drop 0).take 9).countP (fun row => row.description != "")) =
      some 0 ∧
    (0 : Nat) ≠ min 9 1 :=
  ⟨by rfl, by rfl, by decide⟩

/-- Claim C3 (amended): for every valid input in which every declared item
name is non-empty, and every generated bin, the number of rows among that
bin's 9 output rows whose Description is non-empty equals min(9, the
number of items assigned to that bin). -/
theorem C3_spec (categories layout : Dict (List String)) (rows : List Row)
    (h : main categories layout = .ok rows)
    (hne : ∀ p ∈ categories, ∀ x ∈ Prod.snd p, x ≠ "")
    (k : Nat) (b : String) (hk : (generate_all_bins 'A' 'X').get? k = some b) :
    ∃ sorter r,
      build_full_sorter categories layout (generate_all_bins 'A' 'X') = .ok sorter ∧
      sorter.lookup b = some r ∧
      ((rows.drop (9 * k)).take 9).countP (fun row => row.description != "") =
        min 9 r.items.length := by
  obtain ⟨hv1, hv2, sorter, hb, hw⟩ := main_ok_parts h
  have hmem : b ∈ generate_all_bins 'A' 'X' := List.get?_mem hk
  have hdom : (sorter.lookup b).isSome = true := (bfs_domain hb b).mpr hmem
  obtain ⟨r, hr⟩ := Option.isSome_iff_exists.mp hdom
  refine ⟨sorter, r, hb, hr, ?_⟩
  obtain ⟨r', cc, hgr, hpr, hseg⟩ := writeLoop_seg _ _ _ hw k b hk
  have hr' : r' = r := by
    have hh := (dictGet_ok_iff sorter b r').mp hgr
    rw [hr] at hh
    injection hh with hh'
    exact hh'.symm
  subst hr'
  have hseg' : (rows.drop (9 * k)).take 9 =
      (List.range BIN_CAPACITY).map (mkRow (1 + BIN_CAPACITY * k) b cc.1 cc.2 r') := hseg
  rw [hseg', List.countP_map]
  obtain ⟨hlen, hnonempty⟩ := bfs_ItemsOK hne hb (b, r') (lookup_mem hr)
  have hcongr : ∀ j ∈ List.range BIN_CAPACITY,
      ((fun row => row.description != "") ∘ mkRow (1 + BIN_CAPACITY * k) b cc.1 cc.2 r') j =
        decide (j < r'.items.length) := by
    intro j hj
    rw [List.mem_range] at hj
    show ((padItems r'.items).getD j "" != "") = decide (j < r'.items.length)
    by_cases hjr : j < r'.items.length
    · have hget : (padItems r'.items).getD j "" = r'.items.get ⟨j, hjr⟩ := by
        unfold padItems
        rw [List.getD_append _ _ _ _ hjr, List.getD_eq_get _ _ hjr]
      rw [hget]
      have hx := hnonempty _ (r'.items.get_mem j hjr)
      simp [hjr]
      simpa using hx
    · have hget : (padItems r'.items).getD j "" = "" := by
        unfold padItems
        rw [List.getD_append_right _ _ _ _ (by omega)]
        exact getD_replicate_self "" _ _
      rw [hget]
      simp [hjr]
  have hcount : List.countP
      ((fun row => row.description != "") ∘ mkRow (1 + BIN_CAPACITY * k) b cc.1 cc.2 r')
      (List.range BIN_CAPACITY) =
      List.countP (fun j => decide (j < r'.items.length)) (List.range BIN_CAPACITY) :=
    List.countP_congr (fun x hx => by rw [hcongr x hx])
  rw [hcount]
  have hlen9 : r'.items.length ≤ 9 := hlen
  obtain ⟨n, hn⟩ : ∃ n, r'.items.length = n := ⟨_, rfl⟩
  rw [hn] at hlen9 ⊢
  interval_cases n <;> decide

/-- Witness for C3 (amended): a single non-empty item `"x"` in bin `A1`
(bin index 0): one non-empty Description among the bin's 9 rows. -/
theorem C3_witness :
    ∃ rows, main [("T", ["x"])] [("T", ["A1"])] = .ok rows ∧
      ∃ sorter r,
        build_full_sorter [("T", ["x"])] [("T", ["A1"])]
          (generate_all_bins 'A' 'X') = .ok sorter ∧
        sorter.lookup "A1" = some r ∧
        ((rows.drop 0).take 9).countP (fun row => row.description != "") =
          min 9 r.items.length := by
  cases h : main [("T", ["x"])] [("T", ["A1"])] with
  | error e =>
    have hok : (main [("T", ["x"])] [("T", ["A1"])]).isOk = true := by decide
    rw [h] at hok
    exact Bool.noConfusion hok
  | ok rows =>
    refine ⟨rows, rfl, ?_⟩
    have hres := C3_spec [("T", ["x"])] [("T", ["A1"])] rows h (by decide) 0 "A1" (by rfl)
    simpa using hres

/-- Claim C8: on inputs that pass both validations, if the layout
references any bin outside the generated A..X address space, the pipeline
fails with a fatal out-of-range error whose message names an offending
bin, and no manifest is emitted (the run's outcome is that error). -/
theorem C8_spec (categories layout : Dict (List String))
    (hv1 : validate_same_categories categories layout = .ok ())
    (hv2 : validate_layout_bins_unique layout = .ok ())
    (hout : ∃ p ∈ layout, ∃ b0 ∈ Prod.snd p, b0 ∉ generate_all_bins 'A' 'X') :
    ∃ b, refersTo layout b ∧ b ∉ generate_all_bins 'A' 'X' ∧
      main categories layout = .error (.outOfRange b) ∧
      (PipeError.outOfRange b).message =
        "[ERROR] Layout bin " ++ pyRepr b ++ " is outside the generated range (A1..X2)." := by
  obtain ⟨e, he⟩ := bbc_error_of_out hout
  obtain ⟨p, hp, b, hbp, hsh, hbout⟩ := bbc_error he
  refine ⟨b, ⟨p, hp, hbp⟩, hbout, ?_, rfl⟩
  have hbfs : build_full_sorter categories layout (generate_all_bins 'A' 'X') = .error e := by
    simp only [build_full_sorter, he]
  rw [show main categories layout = .error e from by simp only [main, hv1, hv2, hbfs], hsh]

/-- Witness for C8: category `"T"` declares bin `"Z9"`, which is outside
A1..X2; both validations pass and the run fails with the out-of-range
error naming `"Z9"`. -/
theorem C8_witness :
    validate_same_categories [("T", [])] [("T", ["Z9"])] = .ok () ∧
    validate_layout_bins_unique [("T", ["Z9"])] = .ok () ∧
    (∃ b, refersTo [("T", ["Z9"])] b ∧ b ∉ generate_all_bins 'A' 'X' ∧
      main [("T", [])] [("T", ["Z9"])] = .error (.outOfRange b) ∧
      (PipeError.outOfRange b).message =
        "[ERROR] Layout bin " ++ pyRepr b ++
          " is outside the generated range (A1..X2).") :=
  ⟨by rfl, by rfl,
   C8_spec [("T", [])] [("T", ["Z9"])] (by rfl) (by rfl)
     ⟨("T", ["Z9"]), by simp, "Z9", by simp, by decide⟩⟩

end Sorter
